import Mathlib

/-!
Verification of the data-processing core of the healthcare-resource-optimization
repository (src/data_processing: cleaning.py, data_validation.py,
feature_engineering.py, data_merger.py).

The pandas DataFrames of the source are embedded as column-oriented frames:
a frame is a list of named, typed columns; a column is a list of optional
values (a missing entry models a pandas NaN/NaT).  Numeric values are modelled
as exact rationals (the idealisation of the float arithmetic the source
performs), timestamps as a calendar date plus an integer time-of-day.
-/

namespace HRO

/-- Calendar date (pandas `datetime.date` / the day part of a timestamp). -/
structure Date where
  year : Int
  month : Int
  day : Int
deriving DecidableEq

/-- A pandas timestamp: calendar day plus time-of-day (`tod`, in seconds;
`tod = 0` is midnight, i.e. what `pd.to_datetime` produces from a bare date). -/
structure Timestamp where
  day : Date
  tod : Int
deriving DecidableEq

/-- Day count since 1970-01-01 (Howard Hinnant's civil-days algorithm, written
with floor division, which is what `/` and `%` on `Int` provide here). -/
def daysFromCivil (dt : Date) : Int :=
  let y := if dt.month ≤ 2 then dt.year - 1 else dt.year
  let era := y / 400
  let yoe := y - era * 400
  let mp := (dt.month + 9) % 12
  let doy := (153 * mp + 2) / 5 + dt.day - 1
  let doe := yoe * 365 + yoe / 4 - yoe / 100 + doy
  era * 146097 + doe - 719468

/-- Day of week with Monday = 0, as `Series.dt.dayofweek` reports it
(1970-01-01 was a Thursday, hence the offset 3). -/
def Date.dow (dt : Date) : Int :=
  (daysFromCivil dt + 3) % 7

/-- Ordering on calendar dates (lexicographic year, month, day). -/
def Date.leb (a b : Date) : Bool :=
  decide (a.year < b.year ∨ (a.year = b.year ∧
    (a.month < b.month ∨ (a.month = b.month ∧ a.day ≤ b.day))))

/-- Ordering on timestamps (date first, then time-of-day). -/
def Timestamp.leb (a b : Timestamp) : Bool :=
  if a.day = b.day then decide (a.tod ≤ b.tod) else Date.leb a.day b.day

/-- Element of a list of optional values at an index; out of range counts as
missing. -/
def getO (vs : List (Option α)) (i : ℕ) : Option α :=
  (vs[i]?).join

/-- One typed cell of a row (missing = pandas NaN/NaT). -/
inductive Cell
  | num (v : Option ℚ)
  | str (v : Option String)
  | date (v : Option Timestamp)
deriving DecidableEq

/-- One typed column of a frame. -/
inductive ColData
  | num (vs : List (Option ℚ))
  | str (vs : List (Option String))
  | date (vs : List (Option Timestamp))
deriving DecidableEq

namespace ColData

/-- Number of rows stored in a column. -/
def length : ColData → ℕ
  | .num vs => vs.length
  | .str vs => vs.length
  | .date vs => vs.length

/-- Cell of a column at a row index. -/
def cell : ColData → ℕ → Cell
  | .num vs, i => .num (getO vs i)
  | .str vs, i => .str (getO vs i)
  | .date vs, i => .date (getO vs i)

/-- Keep exactly the rows listed in `idx`, in that order (used for row
filtering, dedup and sorting). -/
def select (c : ColData) (idx : List ℕ) : ColData :=
  match c with
  | .num vs => .num (idx.map (getO vs))
  | .str vs => .str (idx.map (getO vs))
  | .date vs => .date (idx.map (getO vs))

/-- `Series.shift(k)`: row `i` of the result holds row `i - k` of the input
when `i ≥ k`, and a missing value for the first `k` rows. -/
def shift (c : ColData) (k : ℕ) : ColData :=
  match c with
  | .num vs => .num ((List.range vs.length).map (fun i => if i < k then none else getO vs (i - k)))
  | .str vs => .str ((List.range vs.length).map (fun i => if i < k then none else getO vs (i - k)))
  | .date vs => .date ((List.range vs.length).map (fun i => if i < k then none else getO vs (i - k)))

end ColData

/-- A DataFrame: ordered list of named, typed columns. -/
abbrev Frame := List (String × ColData)

/-- Row count of a frame (length of its first column; 0 for a column-free
frame). -/
def nRows (f : Frame) : ℕ :=
  match f with
  | [] => 0
  | c :: _ => c.2.length

/-- Column presence test (`name in df.columns`). -/
def hasColB (f : Frame) (n : String) : Bool :=
  f.any (fun p => p.1 = n)

/-- Look a column up by name (first occurrence; pandas column names are
unique). -/
def getCol : Frame → String → Option ColData
  | [], _ => none
  | p :: t, n => if p.1 = n then some p.2 else getCol t n

/-- Column assignment `df[n] = c`: replaces the column in place when the name
exists, otherwise appends it on the right, as pandas does. -/
def setCol : Frame → String → ColData → Frame
  | [], n, c => [(n, c)]
  | p :: t, n, c => if p.1 = n then (n, c) :: t else p :: setCol t n c

/-- The row at an index, as the list of its cells in column order. -/
def rowAt (f : Frame) (i : ℕ) : List Cell :=
  f.map (fun p => p.2.cell i)

/-- Row selection applied to every column. -/
def selectRows (f : Frame) (idx : List ℕ) : Frame :=
  f.map (fun p => (p.1, p.2.select idx))

/-! ### Basic lemmas about frame access -/

theorem getCol_setCol_self (f : Frame) (n : String) (c : ColData) :
    getCol (setCol f n c) n = some c := by
  induction f with
  | nil => simp [setCol, getCol]
  | cons p t ih =>
    by_cases hp : p.1 = n
    · simp [setCol, getCol, hp]
    · simp [setCol, getCol, hp, ih]

theorem getCol_setCol_ne (f : Frame) (n m : String) (c : ColData) (h : n ≠ m) :
    getCol (setCol f m c) n = getCol f n := by
  induction f with
  | nil => simp [setCol, getCol, Ne.symm h]
  | cons p t ih =>
    by_cases hp : p.1 = m
    · have hpn : ¬ (p.1 = n) := by rw [hp]; exact fun he => h he.symm
      simp [setCol, getCol, hp, hpn, Ne.symm h]
    · by_cases hpn : p.1 = n
      · simp [setCol, getCol, hp, hpn, h]
      · simp [setCol, getCol, hp, hpn, ih]

theorem getO_map_range (g : ℕ → Option α) (n i : ℕ) (h : i < n) :
    getO ((List.range n).map g) i = g i := by
  unfold getO
  rw [List.getElem?_map, List.getElem?_range h]
  rfl

/-- The missing cell of a column's dtype. -/
def missingCell : ColData → Cell
  | .num _ => .num none
  | .str _ => .str none
  | .date _ => .date none

theorem length_shift (d : ColData) (k : ℕ) : (d.shift k).length = d.length := by
  cases d <;> simp [ColData.shift, ColData.length]

/-- Row `i` of `Series.shift(k)` holds row `i - k` of the input when `i ≥ k`
and is missing otherwise. -/
theorem cell_shift (d : ColData) (k i : ℕ) (h : i < d.length) :
    (d.shift k).cell i = if i < k then missingCell d else d.cell (i - k) := by
  cases d <;>
    simp only [ColData.shift, ColData.cell, ColData.length, missingCell] at * <;>
    rw [getO_map_range _ _ _ h] <;>
    by_cases hik : i < k <;> simp [hik]

/-! ### A generic "derived columns" fold

`create_lagged_features` and `create_rolling_features` in
feature_engineering.py share the same loop shape: for each requested value
column present in the frame and each parameter (lag or window size), assign a
batch of new columns computed from the value column.  `deriveFold` captures
that loop; the lemmas after it show which columns it writes and that it leaves
all others alone. -/

/-- Assign a batch of columns in order. -/
def addList (f : Frame) (l : List (String × ColData)) : Frame :=
  l.foldl (fun a p => setCol a p.1 p.2) f

/-- One loop iteration: read the value column (skipping it when absent, as the
`if col in df_feat.columns` guard does) and assign the derived columns. -/
def deriveStep (outs : String → ℕ → ColData → List (String × ColData))
    (b : Frame) (c : String) (k : ℕ) : Frame :=
  match getCol b c with
  | some d => addList b (outs c k d)
  | none => b

/-- The double loop over value columns and parameters. -/
def deriveFold (outs : String → ℕ → ColData → List (String × ColData))
    (f : Frame) (vc : List String) (ks : List ℕ) : Frame :=
  vc.foldl (fun a c => ks.foldl (fun b k => deriveStep outs b c k) a) f

theorem getCol_addList_notMem (f : Frame) (l : List (String × ColData))
    (n : String) (h : ∀ p ∈ l, p.1 ≠ n) :
    getCol (addList f l) n = getCol f n := by
  induction l generalizing f with
  | nil => rfl
  | cons p t ih =>
    have h1 : p.1 ≠ n := h p (by simp)
    have h2 : ∀ q ∈ t, q.1 ≠ n := fun q hq => h q (by simp [hq])
    unfold addList List.foldl
    rw [show (t.foldl (fun a p => setCol a p.1 p.2) (setCol f p.1 p.2)) =
        addList (setCol f p.1 p.2) t from rfl]
    rw [ih _ h2, getCol_setCol_ne _ _ _ _ (fun he => h1 he.symm)]

theorem getCol_addList_mem (f : Frame) (l : List (String × ColData))
    (n : String) (c : ColData) (hmem : (n, c) ∈ l)
    (hnd : (l.map Prod.fst).Nodup) :
    getCol (addList f l) n = some c := by
  induction l generalizing f with
  | nil => simp at hmem
  | cons p t ih =>
    simp only [List.map_cons, List.nodup_cons] at hnd
    unfold addList List.foldl
    rw [show (t.foldl (fun a p => setCol a p.1 p.2) (setCol f p.1 p.2)) =
        addList (setCol f p.1 p.2) t from rfl]
    rcases List.mem_cons.mp hmem with rfl | ht
    · rw [getCol_addList_notMem _ _ _ (by
        intro q hq he2
        exact hnd.1 (List.mem_map.mpr ⟨q, hq, he2⟩))]
      exact getCol_setCol_self _ _ _
    · exact ih _ ht hnd.2

section DeriveFoldLemmas

variable (outs : String → ℕ → ColData → List (String × ColData))
variable (N : String → ℕ → List String)

theorem innerFold_pres (hN : ∀ c k d, ∀ p ∈ outs c k d, p.1 ∈ N c k) (c : String) (ks : List ℕ) (b : Frame) (n : String)
    (h : ∀ k ∈ ks, n ∉ N c k) :
    getCol (ks.foldl (fun b k => deriveStep outs b c k) b) n = getCol b n := by
  induction ks generalizing b with
  | nil => rfl
  | cons k0 rest ih =>
    simp only [List.foldl]
    rw [ih _ (fun k hk => h k (by simp [hk]))]
    unfold deriveStep
    cases hbc : getCol b c with
    | none => rfl
    | some d =>
      exact getCol_addList_notMem _ _ _
        (fun p hp he => (h k0 (by simp)) (he ▸ hN c k0 d p hp))

theorem innerFold_set (hN : ∀ c k d, ∀ p ∈ outs c k d, p.1 ∈ N c k) (c : String) (ks : List ℕ) (b : Frame) (k : ℕ)
    (d : ColData) (name : String) (cd : ColData)
    (hk : k ∈ ks)
    (hb : getCol b c = some d)
    (hcsrc : ∀ k2 ∈ ks, c ∉ N c k2)
    (hdisj : ∀ k1 ∈ ks, ∀ k2 ∈ ks, k1 ≠ k2 → ∀ n ∈ N c k1, n ∉ N c k2)
    (hmem : (name, cd) ∈ outs c k d)
    (hnd : ((outs c k d).map Prod.fst).Nodup) :
    getCol (ks.foldl (fun b k => deriveStep outs b c k) b) name = some cd := by
  induction ks generalizing b with
  | nil => cases hk
  | cons k0 rest ih =>
    simp only [List.foldl]
    have hb2 : getCol (deriveStep outs b c k0) c = some d := by
      unfold deriveStep
      rw [hb]
      exact (getCol_addList_notMem _ _ c
        (fun p hp he => (hcsrc k0 (by simp))
          (show c ∈ N c k0 from he ▸ hN c k0 d p hp))).trans hb
    by_cases hkr : k ∈ rest
    · exact ih _ hkr hb2 (fun k2 hk2 => hcsrc k2 (by simp [hk2]))
        (fun k1 h1 k2 h2 hne => hdisj k1 (by simp [h1]) k2 (by simp [h2]) hne)
    · have hkk : k = k0 := by
        rcases List.mem_cons.mp hk with h | h
        · exact h
        · exact absurd h hkr
      subst hkk
      have hset : getCol (deriveStep outs b c k) name = some cd := by
        unfold deriveStep
        rw [hb]
        exact getCol_addList_mem _ _ _ _ hmem hnd
      rw [innerFold_pres outs N hN c rest _ name ?_]
      · exact hset
      · intro k2 hk2 hnmem
        exact (hdisj k (by simp) k2 (by simp [hk2])
          (fun he => hkr (he ▸ hk2)) name (hN c k d _ hmem)) hnmem

theorem deriveFold_pres (hN : ∀ c k d, ∀ p ∈ outs c k d, p.1 ∈ N c k) (f : Frame) (vc : List String) (ks : List ℕ)
    (n : String) (h : ∀ c ∈ vc, ∀ k ∈ ks, n ∉ N c k) :
    getCol (deriveFold outs f vc ks) n = getCol f n := by
  induction vc generalizing f with
  | nil => rfl
  | cons c0 rest ih =>
    show getCol (deriveFold outs
      (ks.foldl (fun b k => deriveStep outs b c0 k) f) rest ks) n = getCol f n
    rw [ih _ (fun c hc k hk => h c (by simp [hc]) k hk)]
    exact innerFold_pres outs N hN c0 ks f n (fun k hk => h c0 (by simp) k hk)

theorem deriveFold_set (hN : ∀ c k d, ∀ p ∈ outs c k d, p.1 ∈ N c k) (f : Frame) (vc : List String) (ks : List ℕ)
    (col : String) (k : ℕ) (d : ColData) (name : String) (cd : ColData)
    (hcol : col ∈ vc) (hk : k ∈ ks)
    (hd : getCol f col = some d)
    (hsrc : ∀ c ∈ vc, ∀ k2 ∈ ks, ∀ c2 ∈ vc, c2 ∉ N c k2)
    (hdisj : ∀ c1 ∈ vc, ∀ k1 ∈ ks, ∀ c2 ∈ vc, ∀ k2 ∈ ks,
      ¬ (c1 = c2 ∧ k1 = k2) → ∀ n ∈ N c1 k1, n ∉ N c2 k2)
    (hmem : (name, cd) ∈ outs col k d)
    (hnd : ((outs col k d).map Prod.fst).Nodup) :
    getCol (deriveFold outs f vc ks) name = some cd := by
  induction vc generalizing f with
  | nil => cases hcol
  | cons c0 rest ih =>
    show getCol (deriveFold outs
      (ks.foldl (fun b k => deriveStep outs b c0 k) f) rest ks) name = some cd
    have hpres0 : ∀ c2 ∈ (c0 :: rest : List String),
        getCol (ks.foldl (fun b k => deriveStep outs b c0 k) f) c2 = getCol f c2 := by
      intro c2 hc2
      exact innerFold_pres outs N hN c0 ks f c2
        (fun k2 hk2 => hsrc c0 (by simp) k2 hk2 c2 hc2)
    by_cases hcr : col ∈ rest
    · exact ih _ hcr (by rw [hpres0 col (by simp [hcr])]; exact hd)
        (fun c hc k2 hk2 c2 hc2 => hsrc c (by simp [hc]) k2 hk2 c2 (by simp [hc2]))
        (fun c1 h1 k1 hk1 c2 h2 k2 hk2 hne =>
          hdisj c1 (by simp [h1]) k1 hk1 c2 (by simp [h2]) k2 hk2 hne)
    · have hc0 : col = c0 := by
        rcases List.mem_cons.mp hcol with h | h
        · exact h
        · exact absurd h hcr
      subst hc0
      have hset : getCol (ks.foldl (fun b k => deriveStep outs b col k) f) name
          = some cd := by
        exact innerFold_set outs N hN col ks f k d name cd hk hd
          (fun k2 hk2 => hsrc col (by simp) k2 hk2 col (by simp))
          (fun k1 h1 k2 h2 hne =>
            hdisj col (by simp) k1 h1 col (by simp) k2 h2 (fun hpair => hne hpair.2))
          hmem hnd
      rw [deriveFold_pres outs N hN _ rest ks name ?_]
      · exact hset
      · intro c2 hc2 k2 hk2 hnmem
        exact (hdisj col (by simp) k (by simp [hk]) c2 (by simp [hc2]) k2 hk2
          (fun hpair => hcr (hpair.1 ▸ hc2)) name (hN col k d _ hmem)) hnmem

end DeriveFoldLemmas

/-! ### FeatureEngineer.create_lagged_features (feature_engineering.py 96-121) -/

/-- Name of a lag column, `f'{col}_lag{lag}'`. -/
def lagName (c : String) (k : ℕ) : String :=
  c ++ "_lag" ++ toString k

/-- Column batch written by one inner-loop iteration:
`df_feat[f'{col}_lag{lag}'] = df_feat[col].shift(lag)`. -/
def lagOuts (c : String) (k : ℕ) (d : ColData) : List (String × ColData) :=
  [(lagName c k, d.shift k)]

/-- The double loop of `create_lagged_features`: for each value column present
in the frame and each lag, assign the shifted column. -/
def create_lagged_features (f : Frame) (value_cols : List String)
    (lags : List ℕ) : Frame :=
  deriveFold lagOuts f value_cols lags

/-! ### FeatureEngineer.create_rolling_features (feature_engineering.py 123-151) -/

/-- Trailing window of `w` rows ending at (and including) row `i`. -/
def win (vs : List (Option ℚ)) (w i : ℕ) : List (Option ℚ) :=
  (vs.take (i + 1)).drop (i + 1 - w)

/-- Mean over a full window: pandas `rolling(w).mean()` (default
`min_periods = w`) yields a value only when all `w` window entries are
non-missing, and then the mean of them. -/
def winMean (l : List (Option ℚ)) : Option ℚ :=
  if l.all Option.isSome then some ((l.filterMap id).sum / (l.length : ℚ))
  else none

/-- Max over a full window (`rolling(w).max()`). -/
def winMax (l : List (Option ℚ)) : Option ℚ :=
  if l.all Option.isSome then (l.filterMap id).max? else none

/-- Min over a full window (`rolling(w).min()`). -/
def winMin (l : List (Option ℚ)) : Option ℚ :=
  if l.all Option.isSome then (l.filterMap id).min? else none

/-- Sample variance (ddof = 1) over a full window.  pandas
`rolling(w).std()` reports the square root of exactly this quantity; the
cells of the embedded std column store the variance because frame cells are
rational, and the definedness pattern (missing iff fewer than `w` rows of
history, or any window entry missing, or `w = 1`) is identical to the
square root's. -/
def winVar (l : List (Option ℚ)) : Option ℚ :=
  if l.all Option.isSome ∧ 2 ≤ l.length then
    some
      (((l.filterMap id).map
        (fun x => (x - (l.filterMap id).sum / ((l.filterMap id).length : ℚ)) ^ 2)).sum
      / (((l.filterMap id).length : ℚ) - 1))
  else none

/-- A rolling column: row `i` holds the statistic of the trailing `w`-row
window when `i + 1 ≥ w`, and a missing value for the first `w - 1` rows. -/
def rollCol (stat : List (Option ℚ) → Option ℚ) (w : ℕ)
    (vs : List (Option ℚ)) : List (Option ℚ) :=
  (List.range vs.length).map
    (fun i => if w ≤ i + 1 then stat (win vs w i) else none)

/-- Name of a rolling column, `f'{col}_rolling_{tag}_{window}d'`. -/
def rollName (c : String) (tag : String) (w : ℕ) : String :=
  c ++ "_rolling_" ++ tag ++ "_" ++ toString w ++ "d"

/-- The four statistic tags in assignment order. -/
def rollTags : List String := ["mean", "std", "max", "min"]

/-- Column batch written by one inner-loop iteration of
`create_rolling_features` (four assignments; rolling over a non-numeric
column raises in pandas and writes nothing). -/
def rollOuts (c : String) (w : ℕ) (d : ColData) : List (String × ColData) :=
  match d with
  | .num vs =>
      [(rollName c "mean" w, .num (rollCol winMean w vs)),
       (rollName c "std" w, .num (rollCol winVar w vs)),
       (rollName c "max" w, .num (rollCol winMax w vs)),
       (rollName c "min" w, .num (rollCol winMin w vs))]
  | _ => []

/-- The double loop of `create_rolling_features`. -/
def create_rolling_features (f : Frame) (value_cols : List String)
    (windows : List ℕ) : Frame :=
  deriveFold rollOuts f value_cols windows

/-- C5: for every input table, every value column present in it, and every
requested lag `k`, `create_lagged_features` adds a column `col_lagk` whose
row `i` holds the source column's value at position `i - k` when `i ≥ k` and
a missing value for the first `k` rows; in particular, for the series
`[10, 20, 30, 40]`, lag-1 yields `[missing, 10, 20, 30]` and lag-2 yields
`[missing, missing, 10, 20]`.  The freshness/injectivity hypotheses say the
generated lag names neither collide with a requested value column nor with
each other, which every sane column naming satisfies (the witness checks them
by computation). -/
theorem c5_create_lagged_features
    (f : Frame) (value_cols : List String) (lags : List ℕ)
    (col : String) (k : ℕ) (d : ColData)
    (hcol : col ∈ value_cols) (hk : k ∈ lags)
    (hd : getCol f col = some d)
    (hfresh : ∀ c1 ∈ value_cols, ∀ k1 ∈ lags, ∀ c2 ∈ value_cols,
      lagName c1 k1 ≠ c2)
    (hinj : ∀ c1 ∈ value_cols, ∀ k1 ∈ lags, ∀ c2 ∈ value_cols, ∀ k2 ∈ lags,
      lagName c1 k1 = lagName c2 k2 → c1 = c2 ∧ k1 = k2) :
    getCol (create_lagged_features f value_cols lags) (lagName col k)
        = some (d.shift k)
    ∧ (∀ i < d.length,
        (d.shift k).cell i = if i < k then missingCell d else d.cell (i - k))
    ∧ getCol (create_lagged_features
        [("visits", ColData.num [some 10, some 20, some 30, some 40])]
        ["visits"] [1, 2]) (lagName "visits" 1)
        = some (ColData.num [none, some 10, some 20, some 30])
    ∧ getCol (create_lagged_features
        [("visits", ColData.num [some 10, some 20, some 30, some 40])]
        ["visits"] [1, 2]) (lagName "visits" 2)
        = some (ColData.num [none, none, some 10, some 20]) := by
  refine ⟨?_, fun i hi => cell_shift d k i hi, by decide, by decide⟩
  refine deriveFold_set lagOuts (fun c k => [lagName c k]) ?_ f value_cols lags
    col k d _ _ hcol hk hd ?_ ?_ ?_ ?_
  · intro c k2 d2 p hp
    simp only [lagOuts, List.mem_singleton] at hp
    simp [hp]
  · intro c hc k2 hk2 c2 hc2 hmem
    simp only [List.mem_singleton] at hmem
    exact hfresh c hc k2 hk2 c2 hc2 hmem.symm
  · intro c1 h1 k1 hk1 c2 h2 k2 hk2 hne n hn1 hn2
    simp only [List.mem_singleton] at hn1 hn2
    exact hne (hinj c1 h1 k1 hk1 c2 h2 k2 hk2 (hn1 ▸ hn2))
  · simp [lagOuts]
  · simp [lagOuts]

/-- Witness for C5: the theorem applied at the concrete frame holding the
series `[10, 20, 30, 40]`, lag 1. -/
theorem c5_create_lagged_features_witness :
    getCol (create_lagged_features
        [("visits", ColData.num [some 10, some 20, some 30, some 40])]
        ["visits"] [1, 2]) (lagName "visits" 1)
      = some ((ColData.num [some 10, some 20, some 30, some 40]).shift 1) :=
  (c5_create_lagged_features
    [("visits", ColData.num [some 10, some 20, some 30, some 40])]
    ["visits"] [1, 2] "visits" 1
    (ColData.num [some 10, some 20, some 30, some 40])
    (by decide) (by decide) (by decide) (by decide) (by decide)).1

/-- The four rolling-column names one inner-loop iteration writes. -/
def rollNames (c : String) (w : ℕ) : List String :=
  [rollName c "mean" w, rollName c "std" w, rollName c "max" w,
   rollName c "min" w]

/-- C6: for every input table, every numeric value column present in it, and
every window size `w`, `create_rolling_features` adds rolling mean, std, max
and min columns whose row `i` holds the statistic over the trailing `w` rows
inclusive of row `i` when `i ≥ w - 1` and a missing value for the first
`w - 1` rows (the std cell stores the ddof-1 sample variance whose square
root pandas reports, missing for `w = 1`); in particular, for `[1,2,3,4,5]`
and window 3 the rolling mean is `[missing, missing, 2, 3, 4]`. -/
theorem c6_create_rolling_features
    (f : Frame) (value_cols : List String) (windows : List ℕ)
    (col : String) (w : ℕ) (vs : List (Option ℚ))
    (hcol : col ∈ value_cols) (hw : w ∈ windows)
    (hd : getCol f col = some (ColData.num vs))
    (hfresh : ∀ c1 ∈ value_cols, ∀ w1 ∈ windows, ∀ t ∈ rollTags,
      ∀ c2 ∈ value_cols, rollName c1 t w1 ≠ c2)
    (hinj : ∀ c1 ∈ value_cols, ∀ w1 ∈ windows, ∀ t1 ∈ rollTags,
      ∀ c2 ∈ value_cols, ∀ w2 ∈ windows, ∀ t2 ∈ rollTags,
      rollName c1 t1 w1 = rollName c2 t2 w2 → c1 = c2 ∧ w1 = w2 ∧ t1 = t2) :
    getCol (create_rolling_features f value_cols windows)
        (rollName col "mean" w) = some (.num (rollCol winMean w vs))
    ∧ getCol (create_rolling_features f value_cols windows)
        (rollName col "std" w) = some (.num (rollCol winVar w vs))
    ∧ getCol (create_rolling_features f value_cols windows)
        (rollName col "max" w) = some (.num (rollCol winMax w vs))
    ∧ getCol (create_rolling_features f value_cols windows)
        (rollName col "min" w) = some (.num (rollCol winMin w vs))
    ∧ (∀ st : List (Option ℚ) → Option ℚ, ∀ i < vs.length,
        getO (rollCol st w vs) i = if w ≤ i + 1 then st (win vs w i) else none)
    ∧ (∀ i, w ≤ i + 1 → i < vs.length → (win vs w i).length = w)
    ∧ rollCol winMean 3 [some 1, some 2, some 3, some 4, some 5]
        = [none, none, some 2, some 3, some 4] := by
  have hN : ∀ c k d, ∀ p ∈ rollOuts c k d, p.1 ∈ rollNames c k := by
    intro c k d p hp
    cases d <;> simp only [rollOuts, List.mem_cons, List.not_mem_nil, or_false] at hp
    rcases hp with h | h | h | h <;> simp [h, rollNames]
  have hsrc : ∀ c ∈ value_cols, ∀ k2 ∈ windows, ∀ c2 ∈ value_cols,
      c2 ∉ rollNames c k2 := by
    intro c hc k2 hk2 c2 hc2 hmem
    simp only [rollNames, List.mem_cons, List.not_mem_nil, or_false] at hmem
    rcases hmem with h | h | h | h
    · exact hfresh c hc k2 hk2 "mean" (by simp [rollTags]) c2 hc2 h.symm
    · exact hfresh c hc k2 hk2 "std" (by simp [rollTags]) c2 hc2 h.symm
    · exact hfresh c hc k2 hk2 "max" (by simp [rollTags]) c2 hc2 h.symm
    · exact hfresh c hc k2 hk2 "min" (by simp [rollTags]) c2 hc2 h.symm
  have hdisj : ∀ c1 ∈ value_cols, ∀ k1 ∈ windows, ∀ c2 ∈ value_cols,
      ∀ k2 ∈ windows, ¬ (c1 = c2 ∧ k1 = k2) →
      ∀ n ∈ rollNames c1 k1, n ∉ rollNames c2 k2 := by
    intro c1 h1 k1 hk1 c2 h2 k2 hk2 hne n hn1 hn2
    have e1 : ∃ t1 ∈ rollTags, n = rollName c1 t1 k1 := by
      simp only [rollNames, List.mem_cons, List.not_mem_nil, or_false] at hn1
      rcases hn1 with h | h | h | h
      · exact ⟨"mean", by simp [rollTags], h⟩
      · exact ⟨"std", by simp [rollTags], h⟩
      · exact ⟨"max", by simp [rollTags], h⟩
      · exact ⟨"min", by simp [rollTags], h⟩
    have e2 : ∃ t2 ∈ rollTags, n = rollName c2 t2 k2 := by
      simp only [rollNames, List.mem_cons, List.not_mem_nil, or_false] at hn2
      rcases hn2 with h | h | h | h
      · exact ⟨"mean", by simp [rollTags], h⟩
      · exact ⟨"std", by simp [rollTags], h⟩
      · exact ⟨"max", by simp [rollTags], h⟩
      · exact ⟨"min", by simp [rollTags], h⟩
    obtain ⟨t1, ht1, he1⟩ := e1
    obtain ⟨t2, ht2, he2⟩ := e2
    have := hinj c1 h1 k1 hk1 t1 ht1 c2 h2 k2 hk2 t2 ht2 (by rw [← he1, ← he2])
    exact hne ⟨this.1, this.2.1⟩
  have htagne : ∀ t1 ∈ rollTags, ∀ t2 ∈ rollTags, t1 ≠ t2 →
      rollName col t1 w ≠ rollName col t2 w := by
    intro t1 ht1 t2 ht2 hne he
    exact hne (hinj col hcol w hw t1 ht1 col hcol w hw t2 ht2 he).2.2
  have hnd : ((rollOuts col w (.num vs)).map Prod.fst).Nodup := by
    simp only [rollOuts, List.map_cons, List.map_nil]
    refine List.nodup_cons.mpr ⟨?_, List.nodup_cons.mpr ⟨?_,
      List.nodup_cons.mpr ⟨?_, List.nodup_singleton _⟩⟩⟩
    · intro hmem
      simp only [List.mem_cons, List.not_mem_nil, or_false] at hmem
      rcases hmem with h | h | h
      · exact htagne "mean" (by simp [rollTags]) "std" (by simp [rollTags]) (by decide) h
      · exact htagne "mean" (by simp [rollTags]) "max" (by simp [rollTags]) (by decide) h
      · exact htagne "mean" (by simp [rollTags]) "min" (by simp [rollTags]) (by decide) h
    · intro hmem
      simp only [List.mem_cons, List.not_mem_nil, or_false] at hmem
      rcases hmem with h | h
      · exact htagne "std" (by simp [rollTags]) "max" (by simp [rollTags]) (by decide) h
      · exact htagne "std" (by simp [rollTags]) "min" (by simp [rollTags]) (by decide) h
    · intro hmem
      simp only [List.mem_cons, List.not_mem_nil, or_false] at hmem
      exact htagne "max" (by simp [rollTags]) "min" (by simp [rollTags]) (by decide) hmem
  refine ⟨?_, ?_, ?_, ?_, ?_, ?_, by
    simp [rollCol, winMean, win, List.range_succ]
    norm_num⟩
  · exact deriveFold_set rollOuts rollNames hN f value_cols windows col w
      (.num vs) _ _ hcol hw hd hsrc hdisj (by simp [rollOuts]) hnd
  · exact deriveFold_set rollOuts rollNames hN f value_cols windows col w
      (.num vs) _ _ hcol hw hd hsrc hdisj (by simp [rollOuts]) hnd
  · exact deriveFold_set rollOuts rollNames hN f value_cols windows col w
      (.num vs) _ _ hcol hw hd hsrc hdisj (by simp [rollOuts]) hnd
  · exact deriveFold_set rollOuts rollNames hN f value_cols windows col w
      (.num vs) _ _ hcol hw hd hsrc hdisj (by simp [rollOuts]) hnd
  · intro st i hi
    unfold rollCol
    exact getO_map_range _ _ _ hi
  · intro i h1 h2
    simp only [win, List.length_drop, List.length_take]
    omega

/-- Witness for C6: the theorem applied at the concrete frame holding the
series `[1, 2, 3, 4, 5]`, window 3. -/
theorem c6_create_rolling_features_witness :
    getCol (create_rolling_features
        [("x", ColData.num [some 1, some 2, some 3, some 4, some 5])]
        ["x"] [3]) (rollName "x" "mean" 3)
      = some (.num (rollCol winMean 3 [some 1, some 2, some 3, some 4, some 5])) :=
  (c6_create_rolling_features
    [("x", ColData.num [some 1, some 2, some 3, some 4, some 5])]
    ["x"] [3] "x" 3 [some 1, some 2, some 3, some 4, some 5]
    (by decide) (by decide) (by decide) (by decide) (by decide)).1

/-! ### Shared numeric summaries (pandas skipna semantics) -/

/-- The non-missing values of a numeric column. -/
def presentVals (vs : List (Option ℚ)) : List ℚ :=
  vs.filterMap id

/-- The non-missing values in ascending order. -/
def sortedVals (vs : List (Option ℚ)) : List ℚ :=
  (presentVals vs).insertionSort (· ≤ ·)

/-- `Series.quantile(q)` with the default linear interpolation: with the
non-missing values sorted as `x_0 ≤ … ≤ x_(n-1)` and `h = q * (n - 1)`, the
result is `x_i + (h - i) * (x_(i+1) - x_i)` for `i = ⌊h⌋`; missing when the
series has no non-missing value. -/
def quantileQ (q : ℚ) (vs : List (Option ℚ)) : Option ℚ :=
  let xs := sortedVals vs
  if xs.length = 0 then none
  else
    let h : ℚ := q * ((xs.length - 1 : ℕ) : ℚ)
    let i : ℕ := (Int.floor h).toNat
    let lo := (xs[i]?).getD 0
    let hi := (xs[i + 1]?).getD lo
    some (lo + (h - (i : ℚ)) * (hi - lo))

/-- `Series.median()` (skipna): middle sorted value, or the mean of the two
middle values for an even count; missing for an all-missing series. -/
def medianQ (vs : List (Option ℚ)) : Option ℚ :=
  let xs := sortedVals vs
  if xs.length = 0 then none
  else if xs.length % 2 = 1 then xs[xs.length / 2]?
  else (xs[xs.length / 2 - 1]?).bind
    (fun a => (xs[xs.length / 2]?).map (fun b => (a + b) / 2))

/-- Whether `Series.std() > 0` holds: the ddof-1 sample standard deviation is
defined (at least two non-missing values; with fewer pandas yields NaN, and
`NaN > 0` is false) and positive, i.e. the squared deviations have positive
sum. -/
def stdPos (vs : List (Option ℚ)) : Bool :=
  let xs := presentVals vs
  decide (2 ≤ xs.length) &&
    decide (0 < (xs.map (fun x => (x - xs.sum / (xs.length : ℚ)) ^ 2)).sum)

/-! ### DataValidator (data_validation.py)

`check_duplicates` (lines 52-80) and `check_numeric_ranges` (lines 109-161);
only the fields the claims speak about are carried.  Both functions divide by
`len(df)` with no zero guard; the embedded ratio is `none` exactly when that
division has a zero divisor. -/

/-- Division as the report performs it: defined only for a nonzero divisor
(Python raises `ZeroDivisionError` / yields NaN on a zero-row table). -/
def ratioDiv (a b : ℚ) : Option ℚ :=
  if b = 0 then none else some (a / b)

/-- Count of rows marked by `df.duplicated()` (keep-first: a row is a
duplicate when an earlier row has equal values on the compared key). -/
def countDups (g : ℕ → β) [DecidableEq β] (n : ℕ) : ℕ :=
  ((List.range n).filter
    (fun i => (List.range i).any (fun j => decide (g j = g i)))).length

/-- The key `df.duplicated(subset=cols)` compares: the row's cells on the
listed columns (an absent column raises in pandas; here it contributes a
`none` uniformly, which no theorem below exercises). -/
def subsetKey (f : Frame) (cols : List String) (i : ℕ) : List (Option Cell) :=
  cols.map (fun n => (getCol f n).map (fun c => c.cell i))

/-- `DataValidator.check_duplicates`: duplicate count and
`duplicate_count / len(df)`.  A `subset` that is `None` or the empty list is
falsy in Python, so full rows are compared. -/
def check_duplicates (f : Frame) (subset : Option (List String)) : ℕ × Option ℚ :=
  let c :=
    match subset with
    | some cols =>
        if cols.isEmpty then countDups (rowAt f) (nRows f)
        else countDups (subsetKey f cols) (nRows f)
    | none => countDups (rowAt f) (nRows f)
  (c, ratioDiv (c : ℚ) ((nRows f : ℕ) : ℚ))

/-- The numeric columns of a frame, in order. -/
def numericCols (f : Frame) : List (String × List (Option ℚ)) :=
  f.filterMap (fun p => match p.2 with
    | .num vs => some (p.1, vs)
    | _ => none)

/-- Rows outside the IQR fence `(Q1 - 1.5*IQR, Q3 + 1.5*IQR)`; a missing
value satisfies neither strict comparison, and with an empty column the
quantiles are missing and pandas' NaN comparisons select no rows. -/
def outlierCount (vs : List (Option ℚ)) : ℕ :=
  match quantileQ (1/4) vs, quantileQ (3/4) vs with
  | some a, some b =>
      (presentVals vs).countP
        (fun v => decide (v < a - (3/2) * (b - a)) || decide (b + (3/2) * (b - a) < v))
  | _, _ => 0

/-- `DataValidator.check_numeric_ranges`: per numeric column the outlier
count and `count / len(df)`. -/
def check_numeric_ranges (f : Frame) : List (String × (ℕ × Option ℚ)) :=
  (numericCols f).map (fun p =>
    (p.1, (outlierCount p.2, ratioDiv ((outlierCount p.2 : ℕ) : ℚ) ((nRows f : ℕ) : ℚ))))

/-- C9: the duplicate ratio of `check_duplicates` and every per-column
outlier ratio of `check_numeric_ranges` divide by the input's row count with
no zero guard, so these fields are well-defined exactly when the table has at
least one row; on a zero-row table both divisions are ill-defined
(embedded as `none`). -/
theorem c9_ratio_zero_guard (f : Frame) (sub : Option (List String))
    (name : String) (e : ℕ × Option ℚ)
    (hmem : (name, e) ∈ check_numeric_ranges f) :
    ((check_duplicates f sub).2.isSome ↔ 0 < nRows f)
    ∧ (e.2.isSome ↔ 0 < nRows f)
    ∧ (nRows f = 0 → (check_duplicates f sub).2 = none ∧ e.2 = none) := by
  have hcast : (((nRows f : ℕ) : ℚ) = 0) ↔ nRows f = 0 := by
    exact_mod_cast Nat.cast_eq_zero (R := ℚ)
  have hdup : (check_duplicates f sub).2.isSome = true ↔ 0 < nRows f := by
    unfold check_duplicates ratioDiv
    by_cases h0 : nRows f = 0
    · simp [hcast, h0]
    · simp [hcast, h0, Nat.pos_of_ne_zero h0]
  have hout : e.2.isSome = true ↔ 0 < nRows f := by
    unfold check_numeric_ranges at hmem
    obtain ⟨p, _, hpe⟩ := List.mem_map.mp hmem
    have he2 : e.2 = ratioDiv ((outlierCount p.2 : ℕ) : ℚ) ((nRows f : ℕ) : ℚ) := by
      have h2 := congrArg Prod.snd hpe
      simp only [Prod.snd] at h2
      rw [← h2]
    rw [he2]
    unfold ratioDiv
    by_cases h0 : nRows f = 0
    · simp [hcast, h0]
    · simp [hcast, h0, Nat.pos_of_ne_zero h0]
  refine ⟨hdup, hout, fun h0 => ⟨?_, ?_⟩⟩
  · cases hv : (check_duplicates f sub).2 with
    | none => rfl
    | some v => exact absurd (hdup.mp (by simp [hv])) (by simp [h0])
  · cases hv : e.2 with
    | none => rfl
    | some v => exact absurd (hout.mp (by simp [hv])) (by simp [h0])

/-- Witness for C9: on the zero-row table with one (empty) numeric column,
both report ratios are ill-defined. -/
theorem c9_ratio_zero_guard_witness :
    ((check_duplicates [("a", ColData.num [])] none).2.isSome
      ↔ 0 < nRows [("a", ColData.num [])])
    ∧ (((0 : ℕ), (none : Option ℚ)).2.isSome ↔ 0 < nRows [("a", ColData.num [])])
    ∧ (nRows [("a", ColData.num [])] = 0 →
        (check_duplicates [("a", ColData.num [])] none).2 = none
        ∧ ((0 : ℕ), (none : Option ℚ)).2 = none) :=
  c9_ratio_zero_guard [("a", ColData.num [])] none "a" (0, none)
    (by simp [check_numeric_ranges, numericCols, outlierCount, quantileQ,
      sortedVals, presentVals, ratioDiv, nRows, ColData.length])

/-! ### pd.to_datetime with errors='coerce' -/

/-- Days of a month in the proleptic Gregorian calendar. -/
def daysInMonth (y m : Int) : Int :=
  if m = 2 then (if (y % 4 = 0 ∧ y % 100 ≠ 0) ∨ y % 400 = 0 then 29 else 28)
  else if m = 4 ∨ m = 6 ∨ m = 9 ∨ m = 11 then 30 else 31

/-- Parse an ISO `YYYY-MM-DD` date, rejecting out-of-range fields as
`pd.to_datetime(errors='coerce')` does. -/
def parseDateStr (s : String) : Option Date :=
  match s.splitOn "-" with
  | [ys, ms, ds] =>
    match ys.toNat?, ms.toNat?, ds.toNat? with
    | some y, some m, some d =>
        if 1 ≤ m ∧ m ≤ 12 ∧ 1 ≤ d ∧ (d : Int) ≤ daysInMonth (y : Int) (m : Int)
        then some ⟨(y : Int), (m : Int), (d : Int)⟩ else none
    | _, _, _ => none
  | _ => none

/-- Parse an `HH:MM:SS` time of day to seconds. -/
def parseTimeStr (s : String) : Option Int :=
  match s.splitOn ":" with
  | [hs, ms, ss] =>
    match hs.toNat?, ms.toNat?, ss.toNat? with
    | some h, some m, some sec =>
        if h ≤ 23 ∧ m ≤ 59 ∧ sec ≤ 59
        then some ((h : Int) * 3600 + (m : Int) * 60 + (sec : Int)) else none
    | _, _, _ => none
  | _ => none

/-- Parse a timestamp string (`YYYY-MM-DD`, optionally followed by a
time of day); unparseable strings coerce to missing (NaT). -/
def parseTimestamp (s : String) : Option Timestamp :=
  match s.splitOn " " with
  | [d] => (parseDateStr d).map (fun dd => ⟨dd, 0⟩)
  | [d, t] => (parseDateStr d).bind
      (fun dd => (parseTimeStr t).map (fun tt => ⟨dd, tt⟩))
  | _ => none

/-- `pd.to_datetime(col, errors='coerce')`: identity on a datetime column,
string parsing with coercion to missing on a string column; a numeric value
is a nanosecond offset from the 1970-01-01 epoch, far below the one-day
granularity any caller in this code uses, so it lands on the epoch day. -/
def toDatetimeCol : ColData → List (Option Timestamp)
  | .date vs => vs
  | .num vs => vs.map (Option.map (fun _ => ⟨⟨1970, 1, 1⟩, 0⟩))
  | .str vs => vs.map (fun v => v.bind parseTimestamp)

/-! ### DataCleaner.clean_scraped_data (cleaning.py 103-159)

The function is the composition of the steps below, in source order. -/

/-- Rows whose value in a string column is non-missing and non-blank
(`df[df[c].notna()]` followed by `df[df[c].str.strip() != '']`); the `.str`
accessor on a non-string column raises in pandas, which no theorem below
exercises. -/
def filterTextStep (f : Frame) (name : String) : Frame :=
  match getCol f name with
  | some (.str vs) =>
      selectRows f ((List.range (nRows f)).filter
        (fun i => match getO vs i with
          | some s => s.trim ≠ ""
          | none => false))
  | _ => f

/-- Coerce the `date` column to datetimes, then drop rows whose date failed
to parse (`dropna(subset=['date'])`). -/
def dateStep (f : Frame) : Frame :=
  match getCol f "date" with
  | some c =>
      let vs := toDatetimeCol c
      let g := setCol f "date" (.date vs)
      selectRows g ((List.range (nRows g)).filter (fun i => (getO vs i).isSome))
  | none => f

/-- One iteration of the text-columns loop: add `f'{col}_lower'` (lower-cased
copy of the original values) and strip the column in place. -/
def lowerStripStep (f : Frame) (name : String) : Frame :=
  match getCol f name with
  | some (.str vs) =>
      setCol (setCol f (name ++ "_lower") (.str (vs.map (Option.map String.toLower))))
        name (.str (vs.map (Option.map String.trim)))
  | _ => f

/-- The text-columns loop over `['text', 'title', 'content', 'clean_text']`. -/
def lowerStep (f : Frame) : Frame :=
  lowerStripStep (lowerStripStep (lowerStripStep (lowerStripStep f "text")
    "title") "content") "clean_text"

/-- Keep the rows whose sentiment score lies in `[-1, 1]`; a missing score
satisfies neither comparison and is dropped too. -/
def sentimentStep (f : Frame) : Frame :=
  match getCol f "sentiment_polarity" with
  | some (.num vs) =>
      selectRows f ((List.range (nRows f)).filter
        (fun i => match getO vs i with
          | some q => decide (-1 ≤ q) && decide (q ≤ 1)
          | none => false))
  | _ => f

/-- The dedup key: `['date', 'title']` when a title column exists, else
`['date', 'text']`, in both cases restricted to the columns present. -/
def dedupCols (f : Frame) : List String :=
  (if hasColB f "title" then ["date", "title"] else ["date", "text"]).filter
    (fun n => hasColB f n)

/-- Indices of the rows `drop_duplicates` keeps (first occurrence of each
key). -/
def keepFirstIdx (g : ℕ → β) [DecidableEq β] (n : ℕ) : List ℕ :=
  (List.range n).filter
    (fun i => !((List.range i).any (fun j => decide (g j = g i))))

/-- The dedup step: drop later rows that repeat an earlier row's key; with an
empty key column list (`if duplicate_cols:` falsy) nothing is dropped. -/
def dedupStep (f : Frame) : Frame :=
  if (dedupCols f).isEmpty then f
  else selectRows f (keepFirstIdx (subsetKey f (dedupCols f)) (nRows f))

/-- Derive `day_of_week`, `month`, `year` from the (datetime) `date`
column; a missing date yields missing derived values. -/
def dowStep (f : Frame) : Frame :=
  match getCol f "date" with
  | some (.date vs) =>
      setCol (setCol (setCol f
        "day_of_week" (.num (vs.map (Option.map (fun ts => ((Date.dow ts.day : Int) : ℚ))))))
        "month" (.num (vs.map (Option.map (fun ts => ((ts.day.month : Int) : ℚ))))))
        "year" (.num (vs.map (Option.map (fun ts => ((ts.day.year : Int) : ℚ)))))
  | _ => f

/-- Missing-last ordering on optional timestamps (`sort_values` puts NaT
last). -/
def optTsLe (a b : Option Timestamp) : Bool :=
  match a, b with
  | none, none => true
  | none, some _ => false
  | some _, none => true
  | some x, some y => Timestamp.leb x y

/-- Sort by date ascending and reset the index.  (`sort_values` uses an
unstable quicksort; this embedding sorts stably, and every property proved
below is insensitive to the order among ties.) -/
def sortStep (f : Frame) : Frame :=
  match getCol f "date" with
  | some (.date vs) =>
      selectRows f ((List.range (nRows f)).insertionSort
        (fun i j => optTsLe (getO vs i) (getO vs j) = true))
  | _ => f

/-- The pipeline up to (excluding) the dedup step: the blank-text and
content filters, date coercion with unparseable-date drop, the text-columns
loop, and the sentiment filter, in source order. -/
def preDedup (f : Frame) : Frame :=
  sentimentStep (lowerStep (dateStep
    (filterTextStep (filterTextStep f "text") "content")))

/-- `DataCleaner.clean_scraped_data`: the steps in source order (the `source`
argument only feeds log messages). -/
def clean_scraped_data (f : Frame) (source : String) : Frame :=
  sortStep (dowStep (dedupStep (preDedup f)))

/-! ### Well-formed frames and how the steps transform them -/

/-- All columns have the frame's row count. -/
def wellFormed (f : Frame) : Prop :=
  ∀ p ∈ f, p.2.length = nRows f

instance wellFormedDec (f : Frame) : Decidable (wellFormed f) := by
  unfold wellFormed
  infer_instance

theorem length_select (c : ColData) (idx : List ℕ) :
    (c.select idx).length = idx.length := by
  cases c <;> simp [ColData.select, ColData.length]

theorem getCol_mem (f : Frame) (n : String) (c : ColData)
    (h : getCol f n = some c) : (n, c) ∈ f := by
  induction f with
  | nil => cases h
  | cons p t ih =>
    by_cases hp : p.1 = n
    · simp only [getCol, hp, if_true, Option.some.injEq] at h
      have he : (n, c) = p := by
        rw [← hp, ← h]
      rw [he]
      exact List.mem_cons_self _ _
    · simp only [getCol, hp, if_false] at h
      exact List.mem_cons_of_mem _ (ih h)

theorem colLen (f : Frame) (n : String) (c : ColData)
    (hwf : wellFormed f) (h : getCol f n = some c) : c.length = nRows f :=
  hwf (n, c) (getCol_mem f n c h)

theorem getCol_selectRows (f : Frame) (idx : List ℕ) (n : String) :
    getCol (selectRows f idx) n = (getCol f n).map (fun c => c.select idx) := by
  induction f with
  | nil => rfl
  | cons p t ih =>
    by_cases hp : p.1 = n
    · simp [selectRows, getCol, hp]
    · simp only [selectRows, List.map_cons, getCol, hp, if_false]
      exact ih

theorem wellFormed_selectRows (f : Frame) (idx : List ℕ) :
    wellFormed (selectRows f idx) := by
  cases f with
  | nil => intro p hp; cases hp
  | cons q t =>
    intro p hp
    simp only [selectRows, List.map_cons, List.mem_cons, List.mem_map] at hp
    rcases hp with rfl | ⟨r, _, rfl⟩ <;>
      simp [nRows, selectRows, length_select]

theorem nRows_selectRows (f : Frame) (idx : List ℕ) (hf : f ≠ []) :
    nRows (selectRows f idx) = idx.length := by
  cases f with
  | nil => exact absurd rfl hf
  | cons q t => simp [selectRows, nRows, length_select]

theorem getO_mem (vs : List (Option α)) (i : ℕ) (h : i < vs.length) :
    getO vs i ∈ vs := by
  unfold getO
  rw [List.getElem?_eq_getElem h]
  exact List.getElem_mem h

theorem mem_setCol (f : Frame) (n : String) (c : ColData) (p : String × ColData)
    (h : p ∈ setCol f n c) : p ∈ f ∨ p = (n, c) := by
  induction f with
  | nil => simpa [setCol] using h
  | cons q t ih =>
    by_cases hq : q.1 = n
    · simp only [setCol, hq, if_true, List.mem_cons] at h
      rcases h with rfl | h
      · right; rfl
      · left; exact List.mem_cons_of_mem _ h
    · simp only [setCol, hq, if_false, List.mem_cons] at h
      rcases h with rfl | h
      · left; exact List.mem_cons_self _ _
      · rcases ih h with h2 | h2
        · left; exact List.mem_cons_of_mem _ h2
        · right; exact h2

theorem nRows_setCol (f : Frame) (n : String) (c : ColData)
    (hlen : c.length = nRows f) : nRows (setCol f n c) = nRows f := by
  cases f with
  | nil => simpa [setCol, nRows] using hlen
  | cons q t =>
    by_cases hq : q.1 = n
    · simpa [setCol, hq, nRows] using hlen
    · simp [setCol, hq, nRows]

theorem wellFormed_setCol (f : Frame) (n : String) (c : ColData)
    (hwf : wellFormed f) (hlen : c.length = nRows f) :
    wellFormed (setCol f n c) := by
  intro p hp
  rw [nRows_setCol f n c hlen]
  rcases mem_setCol f n c p hp with h | rfl
  · exact hwf p h
  · exact hlen

/-- The combined effect of a row-selection step on one numeric column: the
column is selected, its surviving values all come from the input column, and
well-formedness is preserved. -/
theorem selectRows_num_facts (f : Frame) (idx : List ℕ)
    (hidx : ∀ i ∈ idx, i < nRows f) (n : String) (vs : List (Option ℚ))
    (hwf : wellFormed f) (h : getCol f n = some (.num vs)) :
    getCol (selectRows f idx) n = some (.num (idx.map (getO vs)))
    ∧ (∀ v ∈ idx.map (getO vs), v ∈ vs)
    ∧ wellFormed (selectRows f idx) := by
  refine ⟨?_, ?_, wellFormed_selectRows f idx⟩
  · rw [getCol_selectRows, h]
    rfl
  · intro v hv
    obtain ⟨i, hi, rfl⟩ := List.mem_map.mp hv
    have hlen : vs.length = nRows f := by
      simpa [ColData.length] using colLen f n _ hwf h
    exact getO_mem vs i (by rw [hlen]; exact hidx i hi)

theorem length_toDatetimeCol (c : ColData) :
    (toDatetimeCol c).length = c.length := by
  cases c <;> simp [toDatetimeCol, ColData.length]

/-- The shape every step lemma takes for a numeric column the step does not
overwrite: the step keeps the frame well formed, the column numeric, and
every surviving value comes from the input column. -/
def StepKeeps (s : Frame → Frame) (f : Frame) (n : String)
    (vs : List (Option ℚ)) : Prop :=
  wellFormed (s f) ∧ ∃ ws, getCol (s f) n = some (.num ws) ∧ ∀ v ∈ ws, v ∈ vs

theorem stepKeeps_id (f : Frame) (n : String) (vs : List (Option ℚ))
    (hwf : wellFormed f) (h : getCol f n = some (.num vs)) :
    StepKeeps id f n vs :=
  ⟨hwf, vs, h, fun _ hv => hv⟩

theorem filterTextStep_keeps (f : Frame) (name n : String)
    (vs : List (Option ℚ))
    (hwf : wellFormed f) (h : getCol f n = some (.num vs)) :
    StepKeeps (fun g => filterTextStep g name) f n vs := by
  show wellFormed (filterTextStep f name) ∧ ∃ ws,
    getCol (filterTextStep f name) n = some (.num ws) ∧ ∀ v ∈ ws, v ∈ vs
  unfold filterTextStep
  cases hc : getCol f name with
  | none => exact ⟨hwf, vs, h, fun _ hv => hv⟩
  | some c =>
    cases c with
    | str vs2 =>
      have hfacts := selectRows_num_facts f
        ((List.range (nRows f)).filter
          (fun i => match getO vs2 i with
            | some s => s.trim ≠ ""
            | none => false))
        (fun i hi => List.mem_range.mp (List.mem_filter.mp hi).1) n vs hwf h
      exact ⟨hfacts.2.2, _, hfacts.1, hfacts.2.1⟩
    | num vs2 => exact ⟨hwf, vs, h, fun _ hv => hv⟩
    | date vs2 => exact ⟨hwf, vs, h, fun _ hv => hv⟩

theorem dateStep_keeps (f : Frame) (n : String) (vs : List (Option ℚ))
    (hne : n ≠ "date")
    (hwf : wellFormed f) (h : getCol f n = some (.num vs)) :
    StepKeeps dateStep f n vs := by
  unfold StepKeeps dateStep
  cases hc : getCol f "date" with
  | none => exact ⟨hwf, vs, h, fun _ hv => hv⟩
  | some c =>
    have hlen : (ColData.date (toDatetimeCol c)).length = nRows f := by
      simpa [ColData.length, length_toDatetimeCol] using colLen f "date" c hwf hc
    have hwf2 : wellFormed (setCol f "date" (.date (toDatetimeCol c))) :=
      wellFormed_setCol f "date" _ hwf hlen
    have hget2 : getCol (setCol f "date" (.date (toDatetimeCol c))) n
        = some (.num vs) := by
      rw [getCol_setCol_ne _ _ _ _ hne]
      exact h
    have hfacts := selectRows_num_facts _
      ((List.range (nRows (setCol f "date" (.date (toDatetimeCol c))))).filter
        (fun i => (getO (toDatetimeCol c) i).isSome))
      (fun i hi => List.mem_range.mp (List.mem_filter.mp hi).1) n vs hwf2 hget2
    exact ⟨hfacts.2.2, _, hfacts.1, hfacts.2.1⟩

theorem lowerStripStep_keeps (f : Frame) (name n : String)
    (vs : List (Option ℚ))
    (hne1 : n ≠ name) (hne2 : n ≠ name ++ "_lower")
    (hwf : wellFormed f) (h : getCol f n = some (.num vs)) :
    StepKeeps (fun g => lowerStripStep g name) f n vs := by
  show wellFormed (lowerStripStep f name) ∧ ∃ ws,
    getCol (lowerStripStep f name) n = some (.num ws) ∧ ∀ v ∈ ws, v ∈ vs
  unfold lowerStripStep
  cases hc : getCol f name with
  | none => exact ⟨hwf, vs, h, fun _ hv => hv⟩
  | some c =>
    cases c with
    | str vs2 =>
      have hlen0 : (ColData.str vs2).length = nRows f := colLen f name _ hwf hc
      have hlen1 : (ColData.str (vs2.map (Option.map String.toLower))).length
          = nRows f := by
        simpa [ColData.length] using hlen0
      have hwf1 := wellFormed_setCol f (name ++ "_lower") _ hwf hlen1
      have hrows1 := nRows_setCol f (name ++ "_lower")
        (.str (vs2.map (Option.map String.toLower))) hlen1
      have hlen2 : (ColData.str (vs2.map (Option.map String.trim))).length
          = nRows (setCol f (name ++ "_lower")
            (.str (vs2.map (Option.map String.toLower)))) := by
        rw [hrows1]
        simpa [ColData.length] using hlen0
      refine ⟨wellFormed_setCol _ name _ hwf1 hlen2, vs, ?_, fun _ hv => hv⟩
      rw [getCol_setCol_ne _ _ _ _ hne1, getCol_setCol_ne _ _ _ _ hne2]
      exact h
    | num vs2 => exact ⟨hwf, vs, h, fun _ hv => hv⟩
    | date vs2 => exact ⟨hwf, vs, h, fun _ hv => hv⟩

theorem dedupStep_keeps (f : Frame) (n : String) (vs : List (Option ℚ))
    (hwf : wellFormed f) (h : getCol f n = some (.num vs)) :
    StepKeeps dedupStep f n vs := by
  unfold StepKeeps dedupStep
  by_cases he : (dedupCols f).isEmpty
  · simp only [he, if_true]
    exact ⟨hwf, vs, h, fun _ hv => hv⟩
  · simp only [he, if_false]
    have hfacts := selectRows_num_facts f
      (keepFirstIdx (subsetKey f (dedupCols f)) (nRows f))
      (fun i hi => List.mem_range.mp (List.mem_filter.mp hi).1) n vs hwf h
    exact ⟨hfacts.2.2, _, hfacts.1, hfacts.2.1⟩

theorem dowStep_keeps (f : Frame) (n : String) (vs : List (Option ℚ))
    (hne1 : n ≠ "day_of_week") (hne2 : n ≠ "month") (hne3 : n ≠ "year")
    (hwf : wellFormed f) (h : getCol f n = some (.num vs)) :
    StepKeeps dowStep f n vs := by
  unfold StepKeeps dowStep
  cases hc : getCol f "date" with
  | none => exact ⟨hwf, vs, h, fun _ hv => hv⟩
  | some c =>
    cases c with
    | date vs2 =>
      have hlen0 : (ColData.date vs2).length = nRows f := colLen f "date" _ hwf hc
      have hlen1 : (ColData.num (vs2.map (Option.map
          (fun ts => ((Date.dow ts.day : Int) : ℚ))))).length = nRows f := by
        simpa [ColData.length] using hlen0
      have hwf1 := wellFormed_setCol f "day_of_week" _ hwf hlen1
      have hrows1 := nRows_setCol f "day_of_week" _ hlen1
      have hlen2 : (ColData.num (vs2.map (Option.map
          (fun ts => ((ts.day.month : Int) : ℚ))))).length
          = nRows (setCol f "day_of_week" (.num (vs2.map (Option.map
            (fun ts => ((Date.dow ts.day : Int) : ℚ)))))) := by
        rw [hrows1]
        simpa [ColData.length] using hlen0
      have hwf2 := wellFormed_setCol _ "month" _ hwf1 hlen2
      have hrows2 := nRows_setCol _ "month" _ hlen2
      have hlen3 : (ColData.num (vs2.map (Option.map
          (fun ts => ((ts.day.year : Int) : ℚ))))).length
          = nRows (setCol (setCol f "day_of_week" (.num (vs2.map (Option.map
              (fun ts => ((Date.dow ts.day : Int) : ℚ)))))) "month"
            (.num (vs2.map (Option.map (fun ts => ((ts.day.month : Int) : ℚ)))))) := by
        rw [hrows2, hrows1]
        simpa [ColData.length] using hlen0
      refine ⟨wellFormed_setCol _ "year" _ hwf2 hlen3, vs, ?_, fun _ hv => hv⟩
      rw [getCol_setCol_ne _ _ _ _ hne3, getCol_setCol_ne _ _ _ _ hne2,
        getCol_setCol_ne _ _ _ _ hne1]
      exact h
    | num vs2 => exact ⟨hwf, vs, h, fun _ hv => hv⟩
    | str vs2 => exact ⟨hwf, vs, h, fun _ hv => hv⟩

theorem sortStep_keeps (f : Frame) (n : String) (vs : List (Option ℚ))
    (hwf : wellFormed f) (h : getCol f n = some (.num vs)) :
    StepKeeps sortStep f n vs := by
  unfold StepKeeps sortStep
  cases hc : getCol f "date" with
  | none => exact ⟨hwf, vs, h, fun _ hv => hv⟩
  | some c =>
    cases c with
    | date vs2 =>
      have hfacts := selectRows_num_facts f
        ((List.range (nRows f)).insertionSort
          (fun i j => optTsLe (getO vs2 i) (getO vs2 j) = true))
        (fun i hi => List.mem_range.mp ((List.mem_insertionSort _).mp hi)) n vs hwf h
      exact ⟨hfacts.2.2, _, hfacts.1, hfacts.2.1⟩
    | num vs2 => exact ⟨hwf, vs, h, fun _ hv => hv⟩
    | str vs2 => exact ⟨hwf, vs, h, fun _ hv => hv⟩

theorem sentimentStep_filters (f : Frame) (vs : List (Option ℚ))
    (hwf : wellFormed f)
    (h : getCol f "sentiment_polarity" = some (.num vs)) :
    wellFormed (sentimentStep f)
    ∧ ∃ ws, getCol (sentimentStep f) "sentiment_polarity" = some (.num ws)
      ∧ (∀ v ∈ ws, v ∈ vs)
      ∧ (∀ v ∈ ws, ∃ q, v = some q ∧ -1 ≤ q ∧ q ≤ 1) := by
  unfold sentimentStep
  cases hc : getCol f "sentiment_polarity" with
  | none => rw [h] at hc; cases hc
  | some c =>
    have hce : c = ColData.num vs := by
      rw [h] at hc
      exact (Option.some.injEq _ _).mp hc.symm
    subst hce
    have hfacts := selectRows_num_facts f
      ((List.range (nRows f)).filter
        (fun i => match getO vs i with
          | some q => decide (-1 ≤ q) && decide (q ≤ 1)
          | none => false))
      (fun i hi => List.mem_range.mp (List.mem_filter.mp hi).1)
      "sentiment_polarity" vs hwf h
    refine ⟨hfacts.2.2, _, hfacts.1, hfacts.2.1, ?_⟩
    intro v hv
    obtain ⟨i, hi, rfl⟩ := List.mem_map.mp hv
    have hp := (List.mem_filter.mp hi).2
    cases hgo : getO vs i with
    | none => rw [hgo] at hp; cases hp
    | some q =>
      rw [hgo] at hp
      simp only [Bool.and_eq_true, decide_eq_true_eq] at hp
      exact ⟨q, rfl, hp.1, hp.2⟩

/-- C7 counterexample: on a one-row table whose sentiment score is 2, the
claim predicts the row is kept with its score brought into `[-1, 1]`, but
`clean_scraped_data` removes the row. -/
theorem c7_counterexample :
    nRows (clean_scraped_data
      [("sentiment_polarity", ColData.num [some 2])] "reddit") = 0
    ∧ nRows [("sentiment_polarity", ColData.num [some 2])] = 1 := by
  decide

/-- C7 amended: `clean_scraped_data` bounds the sentiment column by removing
rows, not by clipping: every sentiment value in the output lies in `[-1, 1]`
(missing scores are dropped too), and every output value already occurred in
the input column — no score is altered to bring it into range. -/
theorem c7_sentiment_bounds (f : Frame) (vs : List (Option ℚ)) (src : String)
    (hwf : wellFormed f)
    (hs : getCol f "sentiment_polarity" = some (.num vs)) :
    ∃ ws, getCol (clean_scraped_data f src) "sentiment_polarity"
        = some (.num ws)
      ∧ (∀ v ∈ ws, ∃ q, v = some q ∧ -1 ≤ q ∧ q ≤ 1)
      ∧ (∀ v ∈ ws, v ∈ vs) := by
  obtain ⟨hwf1, vs1, h1, hsub1⟩ :=
    filterTextStep_keeps f "text" "sentiment_polarity" vs hwf hs
  obtain ⟨hwf2, vs2, h2, hsub2⟩ :=
    filterTextStep_keeps _ "content" _ vs1 hwf1 h1
  obtain ⟨hwf3, vs3, h3, hsub3⟩ :=
    dateStep_keeps _ _ vs2 (by decide) hwf2 h2
  obtain ⟨hwf4a, vs4a, h4a, hsub4a⟩ :=
    lowerStripStep_keeps _ "text" _ vs3 (by decide) (by decide) hwf3 h3
  obtain ⟨hwf4b, vs4b, h4b, hsub4b⟩ :=
    lowerStripStep_keeps _ "title" _ vs4a (by decide) (by decide) hwf4a h4a
  obtain ⟨hwf4c, vs4c, h4c, hsub4c⟩ :=
    lowerStripStep_keeps _ "content" _ vs4b (by decide) (by decide) hwf4b h4b
  obtain ⟨hwf4d, vs4d, h4d, hsub4d⟩ :=
    lowerStripStep_keeps _ "clean_text" _ vs4c (by decide) (by decide) hwf4c h4c
  obtain ⟨hwf5, vs5, h5, hsub5, hrange5⟩ :=
    sentimentStep_filters _ vs4d hwf4d h4d
  obtain ⟨hwf6, vs6, h6, hsub6⟩ := dedupStep_keeps _ _ vs5 hwf5 h5
  obtain ⟨hwf7, vs7, h7, hsub7⟩ :=
    dowStep_keeps _ _ vs6 (by decide) (by decide) (by decide) hwf6 h6
  obtain ⟨hwf8, vs8, h8, hsub8⟩ := sortStep_keeps _ _ vs7 hwf7 h7
  refine ⟨vs8, ?_, ?_, ?_⟩
  · unfold clean_scraped_data preDedup lowerStep
    exact h8
  · intro v hv
    exact hrange5 v (hsub6 v (hsub7 v (hsub8 v hv)))
  · intro v hv
    exact hsub1 v (hsub2 v (hsub3 v (hsub4a v (hsub4b v (hsub4c v
      (hsub4d v (hsub5 v (hsub6 v (hsub7 v (hsub8 v hv))))))))))

/-- Witness for C7 (amended): the theorem applied at a concrete one-column
frame with an in-range score. -/
theorem c7_sentiment_bounds_witness :
    ∃ ws, getCol (clean_scraped_data
        [("sentiment_polarity", ColData.num [some 1, some 2, none])] "reddit")
        "sentiment_polarity" = some (.num ws)
      ∧ (∀ v ∈ ws, ∃ q, v = some q ∧ -1 ≤ q ∧ q ≤ 1)
      ∧ (∀ v ∈ ws, v ∈ [some 1, some 2, none]) :=
  c7_sentiment_bounds
    [("sentiment_polarity", ColData.num [some 1, some 2, none])]
    [some 1, some 2, none] "reddit" (by decide) (by decide)

/-! ### C8: the dedup key of clean_scraped_data -/

theorem wf_filterTextStep (f : Frame) (name : String) (hwf : wellFormed f) :
    wellFormed (filterTextStep f name) := by
  unfold filterTextStep
  cases hc : getCol f name with
  | none => exact hwf
  | some c =>
    cases c with
    | str vs => exact wellFormed_selectRows f _
    | num vs => exact hwf
    | date vs => exact hwf

theorem wf_dateStep (f : Frame) (hwf : wellFormed f) :
    wellFormed (dateStep f) := by
  unfold dateStep
  cases hc : getCol f "date" with
  | none => exact hwf
  | some c => exact wellFormed_selectRows _ _

theorem wf_lowerStripStep (f : Frame) (name : String) (hwf : wellFormed f) :
    wellFormed (lowerStripStep f name) := by
  unfold lowerStripStep
  cases hc : getCol f name with
  | none => exact hwf
  | some c =>
    cases c with
    | str vs =>
      have hlen0 : (ColData.str vs).length = nRows f := colLen f name _ hwf hc
      have hlen1 : (ColData.str (vs.map (Option.map String.toLower))).length
          = nRows f := by
        simpa [ColData.length] using hlen0
      have hwf1 := wellFormed_setCol f (name ++ "_lower") _ hwf hlen1
      have hrows1 := nRows_setCol f (name ++ "_lower")
        (.str (vs.map (Option.map String.toLower))) hlen1
      refine wellFormed_setCol _ name _ hwf1 ?_
      rw [hrows1]
      simpa [ColData.length] using hlen0
    | num vs => exact hwf
    | date vs => exact hwf

theorem wf_sentimentStep (f : Frame) (hwf : wellFormed f) :
    wellFormed (sentimentStep f) := by
  unfold sentimentStep
  cases hc : getCol f "sentiment_polarity" with
  | none => exact hwf
  | some c =>
    cases c with
    | num vs => exact wellFormed_selectRows f _
    | str vs => exact hwf
    | date vs => exact hwf

theorem wf_preDedup (f : Frame) (hwf : wellFormed f) :
    wellFormed (preDedup f) := by
  unfold preDedup lowerStep
  exact wf_sentimentStep _ (wf_lowerStripStep _ _ (wf_lowerStripStep _ _
    (wf_lowerStripStep _ _ (wf_lowerStripStep _ _ (wf_dateStep _
      (wf_filterTextStep _ _ (wf_filterTextStep _ _ hwf)))))))

theorem wf_dedupStep (f : Frame) (hwf : wellFormed f) :
    wellFormed (dedupStep f) := by
  unfold dedupStep
  by_cases he : (dedupCols f).isEmpty
  · simp only [he, if_true]
    exact hwf
  · simp only [he, if_false]
    exact wellFormed_selectRows f _

theorem hasColB_ne_nil (f : Frame) (n : String) (h : hasColB f n = true) :
    f ≠ [] := by
  intro he
  rw [he] at h
  cases h

theorem nRows_dowStep (f : Frame) (hwf : wellFormed f) :
    nRows (dowStep f) = nRows f := by
  unfold dowStep
  cases hc : getCol f "date" with
  | none => rfl
  | some c =>
    cases c with
    | date vs =>
      have hlen0 : (ColData.date vs).length = nRows f := colLen f "date" _ hwf hc
      have hlen1 : (ColData.num (vs.map (Option.map
          (fun ts => ((Date.dow ts.day : Int) : ℚ))))).length = nRows f := by
        simpa [ColData.length] using hlen0
      have hrows1 := nRows_setCol f "day_of_week" _ hlen1
      have hlen2 : (ColData.num (vs.map (Option.map
          (fun ts => ((ts.day.month : Int) : ℚ))))).length
          = nRows (setCol f "day_of_week" (.num (vs.map (Option.map
            (fun ts => ((Date.dow ts.day : Int) : ℚ)))))) := by
        rw [hrows1]
        simpa [ColData.length] using hlen0
      have hrows2 := nRows_setCol _ "month" _ hlen2
      have hlen3 : (ColData.num (vs.map (Option.map
          (fun ts => ((ts.day.year : Int) : ℚ))))).length
          = nRows (setCol (setCol f "day_of_week" (.num (vs.map (Option.map
              (fun ts => ((Date.dow ts.day : Int) : ℚ)))))) "month"
            (.num (vs.map (Option.map (fun ts => ((ts.day.month : Int) : ℚ)))))) := by
        rw [hrows2, hrows1]
        simpa [ColData.length] using hlen0
      have hrows3 := nRows_setCol _ "year" _ hlen3
      rw [hrows3, hrows2, hrows1]
    | num vs => rfl
    | str vs => rfl

theorem nRows_sortStep (f : Frame) : nRows (sortStep f) = nRows f := by
  unfold sortStep
  cases hc : getCol f "date" with
  | none => rfl
  | some c =>
    cases c with
    | date vs =>
      have hne : f ≠ [] := by
        intro he
        rw [he] at hc
        cases hc
      rw [nRows_selectRows f _ hne, List.length_insertionSort, List.length_range]
    | num vs => rfl
    | str vs => rfl

theorem length_keepFirstIdx (g : ℕ → β) [DecidableEq β] (n : ℕ) :
    (keepFirstIdx g n).length = n - countDups g n := by
  unfold keepFirstIdx countDups
  have h := List.length_eq_length_filter_add (l := List.range n)
    (f := fun i => (List.range i).any (fun j => decide (g j = g i)))
  rw [List.length_range] at h
  omega

theorem nRows_dedupStep (f : Frame) :
    ((dedupCols f).isEmpty = true → dedupStep f = f)
    ∧ ((dedupCols f).isEmpty = false →
        nRows (dedupStep f)
          = nRows f - countDups (subsetKey f (dedupCols f)) (nRows f)) := by
  constructor
  · intro he
    unfold dedupStep
    simp [he]
  · intro he
    have hne : f ≠ [] := by
      cases hdc : dedupCols f with
      | nil => rw [hdc] at he; cases he
      | cons a t =>
        have ha : a ∈ dedupCols f := by
          rw [hdc]
          exact List.mem_cons_self _ _
        unfold dedupCols at ha
        exact hasColB_ne_nil f a (List.mem_filter.mp ha).2
    unfold dedupStep
    simp only [he, Bool.false_eq_true, if_false]
    rw [nRows_selectRows f _ hne, length_keepFirstIdx]

/-- C8 counterexample: a two-row table whose rows are exactly equal but which
has none of the date/title/text columns; the claim predicts exact full-row
dedup removes one row, but `clean_scraped_data` removes nothing. -/
theorem c8_counterexample :
    clean_scraped_data [("body", ColData.str [some "a", some "a"])] "cdc"
      = [("body", ColData.str [some "a", some "a"])]
    ∧ rowAt [("body", ColData.str [some "a", some "a"])] 0
      = rowAt [("body", ColData.str [some "a", some "a"])] 1 := by
  decide

/-- C8 amended: the dedup key is `['date', 'title']` when a title column is
present, else `['date', 'text']`, restricted to columns actually present;
when no key column survives, NO dedup at all happens (there is no full-row
fallback), and in either case the key-dedup is the only row reduction beyond
the blank-text, unparseable-date and sentiment filters: the output row count
equals the post-filter row count minus the number of later rows repeating an
earlier row's key. -/
theorem c8_dedup_key (f : Frame) (src : String) (hwf : wellFormed f) :
    dedupCols (preDedup f)
      = (if hasColB (preDedup f) "title" then ["date", "title"]
         else ["date", "text"]).filter (fun n => hasColB (preDedup f) n)
    ∧ ((dedupCols (preDedup f)).isEmpty = true →
        nRows (clean_scraped_data f src) = nRows (preDedup f))
    ∧ ((dedupCols (preDedup f)).isEmpty = false →
        nRows (clean_scraped_data f src)
          = nRows (preDedup f)
            - countDups (subsetKey (preDedup f) (dedupCols (preDedup f)))
                (nRows (preDedup f))) := by
  have hwfp : wellFormed (preDedup f) := wf_preDedup f hwf
  have hwfd : wellFormed (dedupStep (preDedup f)) := wf_dedupStep _ hwfp
  have hclean : nRows (clean_scraped_data f src)
      = nRows (dedupStep (preDedup f)) := by
    unfold clean_scraped_data
    rw [nRows_sortStep, nRows_dowStep _ hwfd]
  refine ⟨rfl, ?_, ?_⟩
  · intro he
    rw [hclean, (nRows_dedupStep (preDedup f)).1 he]
  · intro he
    rw [hclean, (nRows_dedupStep (preDedup f)).2 he]

/-- Concrete two-row frame (same day, same text twice) for the C8 witness. -/
def c8exF : Frame :=
  [("date", ColData.date [some ⟨⟨2023, 1, 1⟩, 0⟩, some ⟨⟨2023, 1, 1⟩, 0⟩]),
   ("text", ColData.str [some "a", some "a"])]

/-- Witness for C8 (amended): applied at a concrete frame where the key is
`['date', 'text']` and one later duplicate is removed. -/
theorem c8_dedup_key_witness :
    dedupCols (preDedup c8exF)
      = (if hasColB (preDedup c8exF) "title" then ["date", "title"]
         else ["date", "text"]).filter (fun n => hasColB (preDedup c8exF) n)
    ∧ ((dedupCols (preDedup c8exF)).isEmpty = true →
        nRows (clean_scraped_data c8exF "cdc") = nRows (preDedup c8exF))
    ∧ ((dedupCols (preDedup c8exF)).isEmpty = false →
        nRows (clean_scraped_data c8exF "cdc")
          = nRows (preDedup c8exF)
            - countDups (subsetKey (preDedup c8exF) (dedupCols (preDedup c8exF)))
                (nRows (preDedup c8exF))) :=
  c8_dedup_key c8exF "cdc" (by decide)

/-! ### DataCleaner.clean_nhamcs_data (cleaning.py 21-101) -/

/-- Kernel-evaluable lexicographic comparison on character lists. -/
def lexLeChar : List Char → List Char → Bool
  | [], _ => true
  | _ :: _, [] => false
  | a :: as, b :: bs => if a = b then lexLeChar as bs else decide (a < b)

/-- Lexicographic comparison of strings (the order `Series.mode()` sorts
by). -/
def strLeb (a b : String) : Bool :=
  lexLeChar a.data b.data

/-- `Series.mode()[0]`: the lexicographically smallest among the values of
maximal multiplicity; none for an empty value list. -/
def modeVal (xs : List String) : Option String :=
  ((xs.filter (fun x => xs.all (fun y => xs.count y ≤ xs.count x))).insertionSort
    (fun a b => strLeb a b = true)).head?

/-- Numeric missing-value imputation: a column containing a missing value is
filled with its median (`fillna(median)`); a fully missing column has a
missing median and `fillna(NaN)` changes nothing. -/
def imputeNum (vs : List (Option ℚ)) : List (Option ℚ) :=
  if vs.any (fun v => v.isNone) then
    vs.map (fun v => v.orElse (fun _ => medianQ vs))
  else vs

/-- Categorical missing-value imputation: fill with the mode, or the literal
"Unknown" when the column has no non-missing value. -/
def imputeStr (vs : List (Option String)) : List (Option String) :=
  if vs.any (fun v => v.isNone) then
    vs.map (fun v => v.orElse (fun _ => some
      (match modeVal (vs.filterMap id) with
       | some m => m
       | none => "Unknown")))
  else vs

/-- `DataCleaner._handle_missing_values`: per-column imputation (numeric
columns by median, object/category columns by mode; datetime columns are in
neither `select_dtypes` set and stay untouched). -/
def imputeStep (f : Frame) : Frame :=
  f.map (fun p => match p.2 with
    | .num vs => (p.1, ColData.num (imputeNum vs))
    | .str vs => (p.1, ColData.str (imputeStr vs))
    | .date _ => p)

/-- `df_clean.drop_duplicates()`: keep the first occurrence of each full
row. -/
def dedupPrimary (f : Frame) : Frame :=
  selectRows f (keepFirstIdx (rowAt f) (nRows f))

/-- `df_clean['visit_date'] = pd.to_datetime(df_clean['VDATE'],
errors='coerce')`, only if VDATE exists. -/
def vdateStep (f : Frame) : Frame :=
  match getCol f "VDATE" with
  | some c => setCol f "visit_date" (.date (toDatetimeCol c))
  | none => f

/-- `pd.cut(age, bins=[0,18,45,65,120], right=False)`: inclusive-low,
exclusive-high buckets; out-of-range ages are missing. -/
def ageBucket (q : ℚ) : Option String :=
  if 0 ≤ q ∧ q < 18 then some "0-17"
  else if 18 ≤ q ∧ q < 45 then some "18-44"
  else if 45 ≤ q ∧ q < 65 then some "45-64"
  else if 65 ≤ q ∧ q < 120 then some "65+"
  else none

/-- The AGE bucket assignment (`pd.cut` raises on a non-numeric column; that
path is not exercised by any theorem and is modelled as a no-op). -/
def ageStep (f : Frame) : Frame :=
  match getCol f "AGE" with
  | some (.num vs) =>
      setCol f "age_group" (.str (vs.map (fun v => v.bind ageBucket)))
  | _ => f

/-- A decimal integer literal, optionally negative, as `pd.to_numeric`
accepts for the arrival-time field. -/
def parseNumStr (s : String) : Option ℚ :=
  if s.startsWith "-" then ((s.drop 1).toNat?).map (fun n => -((n : ℤ) : ℚ))
  else (s.toNat?).map (fun n => ((n : ℤ) : ℚ))

/-- `pd.to_numeric(col, errors='coerce')` (a datetime column converts to
epoch nanoseconds, which no caller here does; modelled as missing). -/
def toNumericCol : ColData → List (Option ℚ)
  | .num vs => vs
  | .str vs => vs.map (fun v => v.bind parseNumStr)
  | .date vs => vs.map (fun _ => none)

/-- `pd.cut(hour, bins=[0,6,12,18,24], right=False)`. -/
def hourBucket (q : ℚ) : Option String :=
  if 0 ≤ q ∧ q < 6 then some "Night"
  else if 6 ≤ q ∧ q < 12 then some "Morning"
  else if 12 ≤ q ∧ q < 18 then some "Afternoon"
  else if 18 ≤ q ∧ q < 24 then some "Evening"
  else none

/-- `arrival_hour = to_numeric(ARRTIME, coerce) // 100` and its time-of-day
bucket. -/
def arrStep (f : Frame) : Frame :=
  match getCol f "ARRTIME" with
  | some c =>
      setCol (setCol f "arrival_hour"
        (.num ((toNumericCol c).map (Option.map
          (fun q => ((Int.floor (q / 100) : Int) : ℚ))))))
        "time_of_day"
        (.str (((toNumericCol c).map (Option.map
          (fun q => ((Int.floor (q / 100) : Int) : ℚ)))).map
            (fun v => v.bind hourBucket)))
  | none => f

/-- `high_acuity = IMMEDR.isin([1, 2]).astype(int)`: on a non-numeric column
`isin([1, 2])` is uniformly false; a missing value is not "in" either. -/
def acuityStep (f : Frame) : Frame :=
  match getCol f "IMMEDR" with
  | some (.num vs) =>
      setCol f "high_acuity" (.num (vs.map
        (fun v => some (if v = some 1 ∨ v = some 2 then 1 else 0))))
  | some c =>
      setCol f "high_acuity" (.num (List.replicate c.length (some 0)))
  | none => f

/-- `has_insurance = (~PAYTYPER.isin([5, 6])).astype(int)`: the negation
makes a missing (or non-numeric) payer count as insured. -/
def payerStep (f : Frame) : Frame :=
  match getCol f "PAYTYPER" with
  | some (.num vs) =>
      setCol f "has_insurance" (.num (vs.map
        (fun v => some (if v = some 5 ∨ v = some 6 then 0 else 1))))
  | some c =>
      setCol f "has_insurance" (.num (List.replicate c.length (some 1)))
  | none => f

/-- Does the needle occur at the start of the haystack? -/
def leadsWith : List Char → List Char → Bool
  | [], _ => true
  | _ :: _, [] => false
  | a :: as, b :: bs => a = b && leadsWith as bs

/-- Does the needle occur anywhere in the haystack? -/
def occursIn (needle : List Char) : List Char → Bool
  | [] => needle.isEmpty
  | h :: t => leadsWith needle (h :: t) || occursIn needle t

/-- Substring test (`'DIAG' in col`). -/
def containsSub (s pat : String) : Bool :=
  occursIn pat.data s.data

/-- `astype(str)` rendering of a numeric cell (pandas renders floats; the
exact float formatting is abstracted as the rational's string form, and NaN
renders as the literal string "nan"). -/
def renderQ (v : Option ℚ) : String :=
  match v with
  | some q => toString q
  | none => "nan"

/-- `astype(str)` rendering of a datetime cell (exact pandas formatting
abstracted; NaT renders as "NaT"). -/
def renderTs (v : Option Timestamp) : String :=
  match v with
  | some ts => toString ts.day.year ++ "-" ++ toString ts.day.month
      ++ "-" ++ toString ts.day.day
  | none => "NaT"

/-- `df_clean[col].astype(str).str.strip()` for one DIAG column: every cell
becomes a present, stripped string. -/
def diagCol : ColData → ColData
  | .str vs => .str (vs.map (fun v =>
      some ((match v with | some s => s | none => "nan").trim)))
  | .num vs => .str (vs.map (fun v => some ((renderQ v).trim)))
  | .date vs => .str (vs.map (fun v => some ((renderTs v).trim)))

/-- The loop over every column whose name contains "DIAG". -/
def diagStep (f : Frame) : Frame :=
  ((f.map Prod.fst).filter (fun n => containsSub n "DIAG")).foldl
    (fun a n =>
      match getCol a n with
      | some c => setCol a n (diagCol c)
      | none => a) f

/-- `day_of_week`, `is_weekend`, `month` from `visit_date` (present only
when VDATE was; `is_weekend` is 0 on a missing date because `NaN >= 5` is
false, while `day_of_week` and `month` stay missing). -/
def dowPrimeStep (f : Frame) : Frame :=
  match getCol f "visit_date" with
  | some (.date vs) =>
      setCol (setCol (setCol f
        "day_of_week" (.num (vs.map (Option.map
          (fun ts => ((Date.dow ts.day : Int) : ℚ))))))
        "is_weekend" (.num (vs.map (fun v => some
          (match v with
           | some ts => if 5 ≤ Date.dow ts.day then 1 else 0
           | none => 0)))))
        "month" (.num (vs.map (Option.map
          (fun ts => ((ts.day.month : Int) : ℚ)))))
  | _ => f

/-- One column of the outlier-containment loop: clip at the 99th percentile
when the sample standard deviation is positive (`if df[col].std() > 0`),
else leave the column alone. -/
def clipCol (vs : List (Option ℚ)) : List (Option ℚ) :=
  if stdPos vs then
    match quantileQ (99 / 100) vs with
    | some u => vs.map (Option.map (fun v => min v u))
    | none => vs
  else vs

/-- The outlier-containment loop over every numeric column (clipping one
column does not change another column's quantile, so the loop is a per-column
map). -/
def clipStep (f : Frame) : Frame :=
  f.map (fun p => match p.2 with
    | .num vs => (p.1, ColData.num (clipCol vs))
    | _ => p)

/-- Everything `clean_nhamcs_data` does before the final clip, in source
order: imputation, exact-row dedup, and the derived-column branches. -/
def preClip (f : Frame) : Frame :=
  dowPrimeStep (diagStep (payerStep (acuityStep (arrStep (ageStep (vdateStep
    (dedupPrimary (imputeStep f))))))))

/-- `DataCleaner.clean_nhamcs_data`: the pipeline with the 99th-percentile
clip as its final step. -/
def clean_nhamcs_data (f : Frame) : Frame :=
  clipStep (preClip f)

/-! ### Lemmas about the primary-cleaning steps -/

theorem getCol_clipStep (f : Frame) (n : String) :
    getCol (clipStep f) n = (getCol f n).map (fun c =>
      match c with
      | .num vs => ColData.num (clipCol vs)
      | c => c) := by
  induction f with
  | nil => rfl
  | cons p t ih =>
    by_cases hp : p.1 = n
    · cases hc : p.2 <;> simp [clipStep, getCol, hp, hc]
    · cases hc : p.2 <;>
        simp only [clipStep, List.map_cons, getCol, hp, hc, if_false] <;>
        exact ih

theorem getCol_imputeStep (f : Frame) (n : String) :
    getCol (imputeStep f) n = (getCol f n).map (fun c =>
      match c with
      | .num vs => ColData.num (imputeNum vs)
      | .str vs => ColData.str (imputeStr vs)
      | c => c) := by
  induction f with
  | nil => rfl
  | cons p t ih =>
    by_cases hp : p.1 = n
    · cases hc : p.2 <;> simp [imputeStep, getCol, hp, hc]
    · cases hc : p.2 <;>
        simp only [imputeStep, List.map_cons, getCol, hp, hc, if_false] <;>
        exact ih

theorem vdateStep_pres (f : Frame) (n : String) (h : n ≠ "visit_date") :
    getCol (vdateStep f) n = getCol f n := by
  unfold vdateStep
  cases hc : getCol f "VDATE" with
  | none => rfl
  | some c => exact getCol_setCol_ne f n _ _ h

theorem ageStep_pres (f : Frame) (n : String) (h : n ≠ "age_group") :
    getCol (ageStep f) n = getCol f n := by
  unfold ageStep
  cases hc : getCol f "AGE" with
  | none => rfl
  | some c =>
    cases c with
    | num vs => exact getCol_setCol_ne f n _ _ h
    | str vs => rfl
    | date vs => rfl

theorem arrStep_pres (f : Frame) (n : String) (h1 : n ≠ "arrival_hour")
    (h2 : n ≠ "time_of_day") :
    getCol (arrStep f) n = getCol f n := by
  unfold arrStep
  cases hc : getCol f "ARRTIME" with
  | none => rfl
  | some c =>
    rw [getCol_setCol_ne _ n _ _ h2, getCol_setCol_ne _ n _ _ h1]

theorem acuityStep_pres (f : Frame) (n : String) (h : n ≠ "high_acuity") :
    getCol (acuityStep f) n = getCol f n := by
  unfold acuityStep
  cases hc : getCol f "IMMEDR" with
  | none => rfl
  | some c =>
    cases c with
    | num vs => exact getCol_setCol_ne f n _ _ h
    | str vs => exact getCol_setCol_ne f n _ _ h
    | date vs => exact getCol_setCol_ne f n _ _ h

theorem payerStep_pres (f : Frame) (n : String) (h : n ≠ "has_insurance") :
    getCol (payerStep f) n = getCol f n := by
  unfold payerStep
  cases hc : getCol f "PAYTYPER" with
  | none => rfl
  | some c =>
    cases c with
    | num vs => exact getCol_setCol_ne f n _ _ h
    | str vs => exact getCol_setCol_ne f n _ _ h
    | date vs => exact getCol_setCol_ne f n _ _ h

theorem foldDiag_pres (l : List String) (a : Frame) (n : String)
    (h : ∀ m ∈ l, m ≠ n) :
    getCol (l.foldl (fun a n2 =>
      match getCol a n2 with
      | some c => setCol a n2 (diagCol c)
      | none => a) a) n = getCol a n := by
  induction l generalizing a with
  | nil => rfl
  | cons m t ih =>
    simp only [List.foldl]
    rw [ih _ (fun m2 hm2 => h m2 (by simp [hm2]))]
    cases hc : getCol a m with
    | none => rfl
    | some c => exact getCol_setCol_ne a n m _ (fun he => h m (by simp) he.symm)

theorem diagStep_pres (f : Frame) (n : String)
    (h : containsSub n "DIAG" = false) :
    getCol (diagStep f) n = getCol f n := by
  unfold diagStep
  refine foldDiag_pres _ f n ?_
  intro m hm he
  rw [he] at hm
  rw [(List.mem_filter.mp hm).2] at h
  cases h

theorem dowPrimeStep_pres (f : Frame) (n : String) (h1 : n ≠ "day_of_week")
    (h2 : n ≠ "is_weekend") (h3 : n ≠ "month") :
    getCol (dowPrimeStep f) n = getCol f n := by
  unfold dowPrimeStep
  cases hc : getCol f "visit_date" with
  | none => rfl
  | some c =>
    cases c with
    | date vs =>
      rw [getCol_setCol_ne _ n _ _ h3, getCol_setCol_ne _ n _ _ h2,
        getCol_setCol_ne _ n _ _ h1]
    | num vs => rfl
    | str vs => rfl

/-- C10: in `clean_nhamcs_data` the 99th-percentile clip runs last, over the
intermediate table `preClip f` that already contains the imputed values and
the derived columns: every numeric column of that intermediate table — in
particular `arrival_hour`, `day_of_week`, `is_weekend`, `month`,
`high_acuity` and `has_insurance` whenever their source columns exist — is
clipped at its 99th percentile exactly when its sample standard deviation is
positive, and every non-numeric or zero-variance column passes through the
clip unchanged. -/
theorem c10_clip_scope (f : Frame) :
    clean_nhamcs_data f = clipStep (preClip f)
    ∧ (∀ name vs, getCol (preClip f) name = some (ColData.num vs) →
        getCol (clean_nhamcs_data f) name = some (ColData.num (clipCol vs))
        ∧ (stdPos vs = true → ∀ u, quantileQ (99 / 100) vs = some u →
            clipCol vs = vs.map (Option.map (fun v => min v u)))
        ∧ (stdPos vs = false → clipCol vs = vs))
    ∧ (∀ name vs, getCol (preClip f) name = some (ColData.str vs) →
        getCol (clean_nhamcs_data f) name = some (ColData.str vs))
    ∧ (∀ name vs, getCol (preClip f) name = some (ColData.date vs) →
        getCol (clean_nhamcs_data f) name = some (ColData.date vs))
    ∧ (∀ c, getCol f "VDATE" = some c →
        (∃ vs, getCol (preClip f) "day_of_week" = some (ColData.num vs))
        ∧ (∃ vs, getCol (preClip f) "is_weekend" = some (ColData.num vs))
        ∧ (∃ vs, getCol (preClip f) "month" = some (ColData.num vs)))
    ∧ (∀ c, getCol f "ARRTIME" = some c →
        ∃ vs, getCol (preClip f) "arrival_hour" = some (ColData.num vs))
    ∧ (∀ c, getCol f "IMMEDR" = some c →
        ∃ vs, getCol (preClip f) "high_acuity" = some (ColData.num vs))
    ∧ (∀ c, getCol f "PAYTYPER" = some c →
        ∃ vs, getCol (preClip f) "has_insurance" = some (ColData.num vs)) := by
  have hkeep : ∀ (g : Frame) (n : String) (c : ColData), getCol g n = some c →
      ∃ c2, getCol (dedupPrimary (imputeStep g)) n = some c2 := by
    intro g n c h
    unfold dedupPrimary
    rw [getCol_selectRows, getCol_imputeStep, h]
    exact ⟨_, rfl⟩
  refine ⟨rfl, ?_, ?_, ?_, ?_, ?_, ?_, ?_⟩
  · intro name vs h
    refine ⟨?_, ?_, ?_⟩
    · unfold clean_nhamcs_data
      rw [getCol_clipStep, h]
      rfl
    · intro hsp u hu
      unfold clipCol
      rw [hsp, hu]
      simp
    · intro hsp
      unfold clipCol
      rw [hsp]
      simp
  · intro name vs h
    unfold clean_nhamcs_data
    rw [getCol_clipStep, h]
    rfl
  · intro name vs h
    unfold clean_nhamcs_data
    rw [getCol_clipStep, h]
    rfl
  · intro c hc
    obtain ⟨c2, hc2⟩ := hkeep f "VDATE" c hc
    have hvd : getCol (vdateStep (dedupPrimary (imputeStep f))) "visit_date"
        = some (.date (toDatetimeCol c2)) := by
      unfold vdateStep
      rw [hc2]
      exact getCol_setCol_self _ _ _
    have hvd2 : getCol (diagStep (payerStep (acuityStep (arrStep (ageStep
        (vdateStep (dedupPrimary (imputeStep f))))))))
        "visit_date" = some (.date (toDatetimeCol c2)) := by
      rw [diagStep_pres _ _ (by decide), payerStep_pres _ _ (by decide),
        acuityStep_pres _ _ (by decide), arrStep_pres _ _ (by decide) (by decide),
        ageStep_pres _ _ (by decide)]
      exact hvd
    unfold preClip dowPrimeStep
    rw [hvd2]
    refine ⟨?_, ?_, ?_⟩
    · rw [getCol_setCol_ne _ _ _ _ (by decide), getCol_setCol_ne _ _ _ _ (by decide),
        getCol_setCol_self]
      exact ⟨_, rfl⟩
    · rw [getCol_setCol_ne _ _ _ _ (by decide), getCol_setCol_self]
      exact ⟨_, rfl⟩
    · rw [getCol_setCol_self]
      exact ⟨_, rfl⟩
  · intro c hc
    obtain ⟨c2, hc2⟩ := hkeep f "ARRTIME" c hc
    have ha2 : getCol (ageStep (vdateStep (dedupPrimary (imputeStep f))))
        "ARRTIME" = some c2 := by
      rw [ageStep_pres _ _ (by decide), vdateStep_pres _ _ (by decide)]
      exact hc2
    have ha3 : getCol (arrStep (ageStep (vdateStep (dedupPrimary
        (imputeStep f))))) "arrival_hour" = some (.num ((toNumericCol c2).map
          (Option.map (fun q => ((Int.floor (q / 100) : Int) : ℚ))))) := by
      unfold arrStep
      rw [ha2, getCol_setCol_ne _ _ _ _ (by decide)]
      exact getCol_setCol_self _ _ _
    unfold preClip
    rw [dowPrimeStep_pres _ _ (by decide) (by decide) (by decide),
      diagStep_pres _ _ (by decide), payerStep_pres _ _ (by decide),
      acuityStep_pres _ _ (by decide)]
    exact ⟨_, ha3⟩
  · intro c hc
    obtain ⟨c2, hc2⟩ := hkeep f "IMMEDR" c hc
    have ha2 : getCol (arrStep (ageStep (vdateStep (dedupPrimary
        (imputeStep f))))) "IMMEDR" = some c2 := by
      rw [arrStep_pres _ _ (by decide) (by decide), ageStep_pres _ _ (by decide),
        vdateStep_pres _ _ (by decide)]
      exact hc2
    have ha3 : ∃ vs, getCol (acuityStep (arrStep (ageStep (vdateStep
        (dedupPrimary (imputeStep f)))))) "high_acuity"
          = some (ColData.num vs) := by
      unfold acuityStep
      rw [ha2]
      cases c2 with
      | num vs => exact ⟨_, getCol_setCol_self _ _ _⟩
      | str vs => exact ⟨_, getCol_setCol_self _ _ _⟩
      | date vs => exact ⟨_, getCol_setCol_self _ _ _⟩
    obtain ⟨vs, ha3⟩ := ha3
    unfold preClip
    rw [dowPrimeStep_pres _ _ (by decide) (by decide) (by decide),
      diagStep_pres _ _ (by decide), payerStep_pres _ _ (by decide)]
    exact ⟨_, ha3⟩
  · intro c hc
    obtain ⟨c2, hc2⟩ := hkeep f "PAYTYPER" c hc
    have ha2 : getCol (acuityStep (arrStep (ageStep (vdateStep (dedupPrimary
        (imputeStep f)))))) "PAYTYPER" = some c2 := by
      rw [acuityStep_pres _ _ (by decide), arrStep_pres _ _ (by decide) (by decide),
        ageStep_pres _ _ (by decide), vdateStep_pres _ _ (by decide)]
      exact hc2
    have ha3 : ∃ vs, getCol (payerStep (acuityStep (arrStep (ageStep (vdateStep
        (dedupPrimary (imputeStep f))))))) "has_insurance"
          = some (ColData.num vs) := by
      unfold payerStep
      rw [ha2]
      cases c2 with
      | num vs => exact ⟨_, getCol_setCol_self _ _ _⟩
      | str vs => exact ⟨_, getCol_setCol_self _ _ _⟩
      | date vs => exact ⟨_, getCol_setCol_self _ _ _⟩
    obtain ⟨vs, ha3⟩ := ha3
    unfold preClip
    rw [dowPrimeStep_pres _ _ (by decide) (by decide) (by decide),
      diagStep_pres _ _ (by decide)]
    exact ⟨_, ha3⟩

theorem c3_eval1 : clean_nhamcs_data [("X", ColData.num [some 0, some 100])]
    = [("X", ColData.num [some 0, some 99])] := by
  simp +decide only [clean_nhamcs_data, preClip, clipStep, clipCol, stdPos,
    quantileQ, sortedVals, presentVals, medianQ, imputeStep, imputeNum,
    dedupPrimary, keepFirstIdx, rowAt, selectRows, ColData.select,
    ColData.cell, getO, nRows, ColData.length, vdateStep, ageStep, arrStep,
    acuityStep, payerStep, diagStep, dowPrimeStep, getCol, containsSub,
    occursIn, leadsWith, List.insertionSort, List.orderedInsert,
    List.filterMap, List.map, List.filter, List.range, List.foldl, List.any,
    List.all, List.sum, List.length, Option.orElse, Option.isNone,
    Option.bind, Option.map, Option.getD, Option.join, List.getElem?_cons]
  norm_num

theorem c3_eval2 : clean_nhamcs_data [("X", ColData.num [some 0, some 99])]
    = [("X", ColData.num [some 0, some (9801 / 100)])] := by
  simp +decide only [clean_nhamcs_data, preClip, clipStep, clipCol, stdPos,
    quantileQ, sortedVals, presentVals, medianQ, imputeStep, imputeNum,
    dedupPrimary, keepFirstIdx, rowAt, selectRows, ColData.select,
    ColData.cell, getO, nRows, ColData.length, vdateStep, ageStep, arrStep,
    acuityStep, payerStep, diagStep, dowPrimeStep, getCol, containsSub,
    occursIn, leadsWith, List.insertionSort, List.orderedInsert,
    List.filterMap, List.map, List.filter, List.range, List.foldl, List.any,
    List.all, List.sum, List.length, Option.orElse, Option.isNone,
    Option.bind, Option.map, Option.getD, Option.join, List.getElem?_cons]
  norm_num

/-- C3 counterexample: on the two-row table with one numeric column holding
`[0, 100]`, a second application of `clean_nhamcs_data` lowers the clipped
maximum again (99 becomes 98.01), so the function is not idempotent. -/
theorem c3_counterexample :
    clean_nhamcs_data (clean_nhamcs_data [("X", ColData.num [some 0, some 100])])
      ≠ clean_nhamcs_data [("X", ColData.num [some 0, some 100])] := by
  rw [c3_eval1, c3_eval2]
  intro h
  simp only [List.cons.injEq, Prod.mk.injEq, ColData.num.injEq,
    Option.some.injEq] at h
  norm_num at h

/-- A frame with none of the column names the derived-feature branches of
`clean_nhamcs_data` react to. -/
def NoSpecial (f : Frame) : Prop :=
  ∀ p ∈ f, p.1 ≠ "VDATE" ∧ p.1 ≠ "AGE" ∧ p.1 ≠ "ARRTIME" ∧ p.1 ≠ "IMMEDR"
    ∧ p.1 ≠ "PAYTYPER" ∧ p.1 ≠ "visit_date" ∧ containsSub p.1 "DIAG" = false

instance noSpecialDec (f : Frame) : Decidable (NoSpecial f) := by
  unfold NoSpecial
  infer_instance

theorem getCol_eq_none (f : Frame) (n : String) (h : ∀ p ∈ f, p.1 ≠ n) :
    getCol f n = none := by
  induction f with
  | nil => rfl
  | cons p t ih =>
    simp only [getCol, h p (by simp), if_false]
    exact ih (fun q hq => h q (by simp [hq]))

theorem mem_fst_imputeStep (f : Frame) (p : String × ColData)
    (h : p ∈ imputeStep f) : ∃ q ∈ f, p.1 = q.1 := by
  obtain ⟨q, hq, he⟩ := List.mem_map.mp h
  refine ⟨q, hq, ?_⟩
  cases hc : q.2 <;> rw [hc] at he <;> rw [← he]

theorem mem_fst_selectRows (f : Frame) (idx : List ℕ) (p : String × ColData)
    (h : p ∈ selectRows f idx) : ∃ q ∈ f, p.1 = q.1 := by
  obtain ⟨q, hq, he⟩ := List.mem_map.mp h
  exact ⟨q, hq, by rw [← he]⟩

theorem mem_fst_clipStep (f : Frame) (p : String × ColData)
    (h : p ∈ clipStep f) : ∃ q ∈ f, p.1 = q.1 := by
  obtain ⟨q, hq, he⟩ := List.mem_map.mp h
  refine ⟨q, hq, ?_⟩
  cases hc : q.2 <;> rw [hc] at he <;> rw [← he]

theorem noSpecial_transfer (f g : Frame)
    (htr : ∀ p ∈ g, ∃ q ∈ f, p.1 = q.1) (h : NoSpecial f) : NoSpecial g := by
  intro p hp
  obtain ⟨q, hq, he⟩ := htr p hp
  rw [he]
  exact h q hq

theorem vdateStep_skip (f : Frame) (h : getCol f "VDATE" = none) :
    vdateStep f = f := by
  unfold vdateStep
  rw [h]

theorem ageStep_skip (f : Frame) (h : getCol f "AGE" = none) :
    ageStep f = f := by
  unfold ageStep
  rw [h]

theorem arrStep_skip (f : Frame) (h : getCol f "ARRTIME" = none) :
    arrStep f = f := by
  unfold arrStep
  rw [h]

theorem acuityStep_skip (f : Frame) (h : getCol f "IMMEDR" = none) :
    acuityStep f = f := by
  unfold acuityStep
  rw [h]

theorem payerStep_skip (f : Frame) (h : getCol f "PAYTYPER" = none) :
    payerStep f = f := by
  unfold payerStep
  rw [h]

theorem dowPrimeStep_skip (f : Frame) (h : getCol f "visit_date" = none) :
    dowPrimeStep f = f := by
  unfold dowPrimeStep
  rw [h]

theorem diagStep_skip (f : Frame)
    (h : ∀ p ∈ f, containsSub p.1 "DIAG" = false) :
    diagStep f = f := by
  unfold diagStep
  have he : (f.map Prod.fst).filter (fun n => containsSub n "DIAG") = [] := by
    rw [List.filter_eq_nil_iff]
    intro n hn
    obtain ⟨q, hq, he⟩ := List.mem_map.mp hn
    rw [← he, h q hq]
    simp
  rw [he]
  rfl

/-- On a frame touching none of the special column names, the primary
cleaner is exactly impute → dedup → clip. -/
theorem clean_reduced (f : Frame) (h : NoSpecial f) :
    clean_nhamcs_data f = clipStep (dedupPrimary (imputeStep f)) := by
  have hdd : NoSpecial (dedupPrimary (imputeStep f)) :=
    noSpecial_transfer _ _ (fun p hp => by
      obtain ⟨q, hq, he⟩ := mem_fst_selectRows _ _ p hp
      obtain ⟨r, hr, he2⟩ := mem_fst_imputeStep _ q hq
      exact ⟨r, hr, by rw [he, he2]⟩) h
  unfold clean_nhamcs_data preClip
  rw [vdateStep_skip _ (getCol_eq_none _ _ (fun p hp => (hdd p hp).1)),
    ageStep_skip _ (getCol_eq_none _ _ (fun p hp => (hdd p hp).2.1)),
    arrStep_skip _ (getCol_eq_none _ _ (fun p hp => (hdd p hp).2.2.1)),
    acuityStep_skip _ (getCol_eq_none _ _ (fun p hp => (hdd p hp).2.2.2.1)),
    payerStep_skip _ (getCol_eq_none _ _ (fun p hp => (hdd p hp).2.2.2.2.1)),
    diagStep_skip _ (fun p hp => (hdd p hp).2.2.2.2.2.2),
    dowPrimeStep_skip _ (getCol_eq_none _ _ (fun p hp => (hdd p hp).2.2.2.2.2.1))]

theorem length_imputeNum (vs : List (Option ℚ)) :
    (imputeNum vs).length = vs.length := by
  unfold imputeNum
  by_cases h : vs.any (fun v => v.isNone) <;> simp [h]

theorem length_imputeStr (vs : List (Option String)) :
    (imputeStr vs).length = vs.length := by
  unfold imputeStr
  by_cases h : vs.any (fun v => v.isNone) <;> simp [h]

theorem length_clipCol (vs : List (Option ℚ)) :
    (clipCol vs).length = vs.length := by
  unfold clipCol
  by_cases h : stdPos vs
  · rw [if_pos h]
    cases hq : quantileQ (99 / 100) vs <;> simp
  · rw [if_neg h]

theorem nRows_imputeStep (f : Frame) : nRows (imputeStep f) = nRows f := by
  cases f with
  | nil => rfl
  | cons p t =>
    cases hc : p.2 <;>
      simp [imputeStep, nRows, ColData.length, hc, length_imputeNum,
        length_imputeStr]

theorem wf_imputeStep (f : Frame) (hwf : wellFormed f) :
    wellFormed (imputeStep f) := by
  intro p hp
  rw [nRows_imputeStep]
  obtain ⟨q, hq, he⟩ := List.mem_map.mp hp
  have hlq := hwf q hq
  cases hc : q.2 <;> rw [hc] at he <;> rw [← he] <;>
    simp only [ColData.length, length_imputeNum, length_imputeStr] <;>
    (rw [← hlq, hc]; rfl)

theorem nRows_clipStep (f : Frame) : nRows (clipStep f) = nRows f := by
  cases f with
  | nil => rfl
  | cons p t =>
    cases hc : p.2 <;>
      simp [clipStep, nRows, ColData.length, hc, length_clipCol]

theorem wf_clipStep (f : Frame) (hwf : wellFormed f) :
    wellFormed (clipStep f) := by
  intro p hp
  rw [nRows_clipStep]
  obtain ⟨q, hq, he⟩ := List.mem_map.mp hp
  have hlq := hwf q hq
  cases hc : q.2 <;> rw [hc] at he <;> rw [← he] <;>
    simp only [ColData.length, length_clipCol] <;>
    (rw [← hlq, hc]; rfl)

/-- A numeric column is either missing-free or entirely missing — the state
every numeric column is in right after imputation. -/
def noMixed (vs : List (Option ℚ)) : Prop :=
  (∀ v ∈ vs, v.isSome = true) ∨ (∀ v ∈ vs, v = none)

/-- The column state `_handle_missing_values` leaves behind: numeric columns
unmixed, object columns missing-free. -/
def ImpInv (f : Frame) : Prop :=
  ∀ p ∈ f, (∀ vs, p.2 = ColData.num vs → noMixed vs)
    ∧ (∀ vs, p.2 = ColData.str vs → ∀ v ∈ vs, v.isSome = true)

theorem medianQ_none_of_empty (vs : List (Option ℚ))
    (h : presentVals vs = []) : medianQ vs = none := by
  unfold medianQ sortedVals
  rw [h]
  rfl

theorem medianQ_isSome (vs : List (Option ℚ)) (h : presentVals vs ≠ []) :
    (medianQ vs).isSome = true := by
  unfold medianQ
  have hlen : (sortedVals vs).length ≠ 0 := by
    unfold sortedVals
    rw [List.length_insertionSort]
    exact fun he => h (List.length_eq_zero.mp he)
  rw [if_neg hlen]
  by_cases hodd : (sortedVals vs).length % 2 = 1
  · rw [if_pos hodd]
    rw [List.getElem?_eq_getElem (by omega)]
    rfl
  · rw [if_neg hodd]
    rw [List.getElem?_eq_getElem (by omega), List.getElem?_eq_getElem (by omega)]
    rfl

theorem noMixed_imputeNum (vs : List (Option ℚ)) : noMixed (imputeNum vs) := by
  unfold imputeNum
  by_cases hg : vs.any (fun v => v.isNone)
  · rw [if_pos hg]
    by_cases hp : presentVals vs = []
    · right
      intro v hv
      obtain ⟨w, hw, rfl⟩ := List.mem_map.mp hv
      have hwn : w = none := by
        have := List.filterMap_eq_nil.mp hp w hw
        exact this
      rw [hwn, medianQ_none_of_empty vs hp]
      rfl
    · left
      intro v hv
      obtain ⟨w, hw, rfl⟩ := List.mem_map.mp hv
      cases hwc : w with
      | some a => rfl
      | none =>
        show (Option.orElse none (fun _ => medianQ vs)).isSome = true
        have := medianQ_isSome vs hp
        cases hm : medianQ vs with
        | none => rw [hm] at this; cases this
        | some m => simp [Option.orElse, hm]
  · rw [if_neg hg]
    left
    intro v hv
    have := List.any_eq_false.mp (Bool.eq_false_iff.mpr hg) v hv
    cases v with
    | some a => rfl
    | none => exact absurd rfl this

theorem allSome_imputeStr (vs : List (Option String)) :
    ∀ v ∈ imputeStr vs, v.isSome = true := by
  unfold imputeStr
  by_cases hg : vs.any (fun v => v.isNone)
  · rw [if_pos hg]
    intro v hv
    obtain ⟨w, hw, rfl⟩ := List.mem_map.mp hv
    cases w with
    | some a => rfl
    | none => rfl
  · rw [if_neg hg]
    intro v hv
    have := List.any_eq_false.mp (Bool.eq_false_iff.mpr hg) v hv
    cases v with
    | some a => rfl
    | none => exact absurd rfl this

theorem impInv_imputeStep (f : Frame) : ImpInv (imputeStep f) := by
  intro p hp
  obtain ⟨q, hq2, he⟩ := List.mem_map.mp hp
  cases hc : q.2 with
  | num vs0 =>
    rw [hc] at he
    have hp2 : (q.1, ColData.num (imputeNum vs0)) = p := he
    rw [← hp2]
    refine ⟨fun vs hvs => ?_, fun vs hvs => ?_⟩
    · have h2 : ColData.num (imputeNum vs0) = ColData.num vs := hvs
      rw [ColData.num.injEq] at h2
      rw [← h2]
      exact noMixed_imputeNum vs0
    · have h2 : ColData.num (imputeNum vs0) = ColData.str vs := hvs
      cases h2
  | str vs0 =>
    rw [hc] at he
    have hp2 : (q.1, ColData.str (imputeStr vs0)) = p := he
    rw [← hp2]
    refine ⟨fun vs hvs => ?_, fun vs hvs => ?_⟩
    · have h2 : ColData.str (imputeStr vs0) = ColData.num vs := hvs
      cases h2
    · have h2 : ColData.str (imputeStr vs0) = ColData.str vs := hvs
      rw [ColData.str.injEq] at h2
      rw [← h2]
      exact allSome_imputeStr vs0
  | date vs0 =>
    rw [hc] at he
    have hp2 : q = p := he
    rw [← hp2]
    refine ⟨fun vs hvs => ?_, fun vs hvs => ?_⟩ <;> rw [hc] at hvs <;> cases hvs

theorem getO_none_of_all (vs : List (Option α)) (i : ℕ)
    (h : ∀ v ∈ vs, v = none) : getO vs i = none := by
  unfold getO
  cases hv : vs[i]? with
  | none => rfl
  | some w =>
    obtain ⟨hlt, he⟩ := List.getElem?_eq_some_iff.mp hv
    have : w ∈ vs := by
      rw [← he]
      exact List.getElem_mem hlt
    rw [h w this]
    rfl

theorem getO_isSome_of_all (vs : List (Option α)) (i : ℕ) (hi : i < vs.length)
    (h : ∀ v ∈ vs, v.isSome = true) : (getO vs i).isSome = true :=
  h _ (getO_mem vs i hi)

theorem impInv_selectRows (f : Frame) (idx : List ℕ)
    (hwf : wellFormed f) (hidx : ∀ i ∈ idx, i < nRows f)
    (hinv : ImpInv f) : ImpInv (selectRows f idx) := by
  intro p hp
  obtain ⟨q, hq, he⟩ := List.mem_map.mp hp
  have hqinv := hinv q hq
  have hql := hwf q hq
  cases hc : q.2 with
  | num vs0 =>
    rw [hc] at he
    have hp2 : (q.1, ColData.num (idx.map (getO vs0))) = p := he
    rw [← hp2]
    have hlen : vs0.length = nRows f := by
      rw [hc] at hql
      simpa [ColData.length] using hql
    refine ⟨fun vs hvs => ?_, fun vs hvs => ?_⟩
    · have h2 : ColData.num (idx.map (getO vs0)) = ColData.num vs := hvs
      rw [ColData.num.injEq] at h2
      rw [← h2]
      rcases hqinv.1 vs0 hc with hmix | hmix
      · left
        intro v hv
        obtain ⟨i, hi, rfl⟩ := List.mem_map.mp hv
        exact getO_isSome_of_all _ _ (by rw [hlen]; exact hidx i hi) hmix
      · right
        intro v hv
        obtain ⟨i, _, rfl⟩ := List.mem_map.mp hv
        exact getO_none_of_all _ _ hmix
    · have h2 : ColData.num (idx.map (getO vs0)) = ColData.str vs := hvs
      cases h2
  | str vs0 =>
    rw [hc] at he
    have hp2 : (q.1, ColData.str (idx.map (getO vs0))) = p := he
    rw [← hp2]
    have hlen : vs0.length = nRows f := by
      rw [hc] at hql
      simpa [ColData.length] using hql
    refine ⟨fun vs hvs => ?_, fun vs hvs => ?_⟩
    · have h2 : ColData.str (idx.map (getO vs0)) = ColData.num vs := hvs
      cases h2
    · have h2 : ColData.str (idx.map (getO vs0)) = ColData.str vs := hvs
      rw [ColData.str.injEq] at h2
      rw [← h2]
      intro v hv
      obtain ⟨i, hi, rfl⟩ := List.mem_map.mp hv
      exact getO_isSome_of_all _ _ (by rw [hlen]; exact hidx i hi)
        (hqinv.2 vs0 hc)
  | date vs0 =>
    rw [hc] at he
    have hp2 : (q.1, ColData.date (idx.map (getO vs0))) = p := he
    rw [← hp2]
    refine ⟨fun vs hvs => ?_, fun vs hvs => ?_⟩
    · have h2 : ColData.date (idx.map (getO vs0)) = ColData.num vs := hvs
      cases h2
    · have h2 : ColData.date (idx.map (getO vs0)) = ColData.str vs := hvs
      cases h2

theorem noMixed_clipCol (vs : List (Option ℚ)) (h : noMixed vs) :
    noMixed (clipCol vs) := by
  unfold clipCol
  by_cases hs : stdPos vs
  · rw [if_pos hs]
    cases hq : quantileQ (99 / 100) vs with
    | none => exact h
    | some u =>
      rcases h with h | h
      · left
        intro v hv
        obtain ⟨w, hw, rfl⟩ := List.mem_map.mp hv
        have := h w hw
        cases w with
        | some a => rfl
        | none => cases this
      · right
        intro v hv
        obtain ⟨w, hw, rfl⟩ := List.mem_map.mp hv
        rw [h w hw]
        rfl
  · rw [if_neg hs]
    exact h

theorem impInv_clipStep (f : Frame) (hinv : ImpInv f) : ImpInv (clipStep f) := by
  intro p hp
  obtain ⟨q, hq, he⟩ := List.mem_map.mp hp
  have hqinv := hinv q hq
  cases hc : q.2 with
  | num vs0 =>
    rw [hc] at he
    have hp2 : (q.1, ColData.num (clipCol vs0)) = p := he
    rw [← hp2]
    refine ⟨fun vs hvs => ?_, fun vs hvs => ?_⟩
    · have h2 : ColData.num (clipCol vs0) = ColData.num vs := hvs
      rw [ColData.num.injEq] at h2
      rw [← h2]
      exact noMixed_clipCol vs0 (hqinv.1 vs0 hc)
    · have h2 : ColData.num (clipCol vs0) = ColData.str vs := hvs
      cases h2
  | str vs0 =>
    rw [hc] at he
    have hp2 : q = p := he
    rw [← hp2]
    exact hqinv
  | date vs0 =>
    rw [hc] at he
    have hp2 : q = p := he
    rw [← hp2]
    exact hqinv

theorem imputeNum_id_of_noMixed (vs : List (Option ℚ)) (h : noMixed vs) :
    imputeNum vs = vs := by
  unfold imputeNum
  rcases h with h | h
  · rw [if_neg]
    intro hg
    obtain ⟨v, hv, hvn⟩ := List.any_eq_true.mp hg
    have := h v hv
    cases v with
    | some a => cases hvn
    | none => cases this
  · by_cases hg : vs.any (fun v => v.isNone)
    · rw [if_pos hg]
      have hmed : medianQ vs = none := by
        refine medianQ_none_of_empty vs ?_
        unfold presentVals
        exact List.filterMap_eq_nil.mpr (fun a ha => h a ha)
      rw [hmed]
      have : ∀ v ∈ vs, (fun v => v.orElse (fun _ => (none : Option ℚ))) v = id v := by
        intro v hv
        rw [h v hv]
        rfl
      rw [List.map_congr_left this, List.map_id]
    · rw [if_neg hg]

theorem imputeStr_id_of_allSome (vs : List (Option String))
    (h : ∀ v ∈ vs, v.isSome = true) : imputeStr vs = vs := by
  unfold imputeStr
  rw [if_neg]
  intro hg
  obtain ⟨v, hv, hvn⟩ := List.any_eq_true.mp hg
  have := h v hv
  cases v with
  | some a => cases hvn
  | none => cases this

theorem imputeStep_id (f : Frame) (hinv : ImpInv f) : imputeStep f = f := by
  unfold imputeStep
  have : ∀ p ∈ f, (fun p : String × ColData => match p.2 with
      | ColData.num vs => (p.1, ColData.num (imputeNum vs))
      | ColData.str vs => (p.1, ColData.str (imputeStr vs))
      | ColData.date _ => p) p = id p := by
    intro p hp
    obtain ⟨nm, c⟩ := p
    have hpinv := hinv (nm, c) hp
    cases c with
    | num vs =>
      show ((nm, ColData.num (imputeNum vs)) : String × ColData)
        = id (nm, ColData.num vs)
      rw [imputeNum_id_of_noMixed vs (hpinv.1 vs rfl)]
      rfl
    | str vs =>
      show ((nm, ColData.str (imputeStr vs)) : String × ColData)
        = id (nm, ColData.str vs)
      rw [imputeStr_id_of_allSome vs (hpinv.2 vs rfl)]
      rfl
    | date vs => rfl
  rw [List.map_congr_left this, List.map_id]

theorem map_getO_range (vs : List (Option α)) :
    (List.range vs.length).map (getO vs) = vs := by
  refine List.ext_getElem (by simp) ?_
  intro i h1 h2
  rw [List.getElem_map, List.getElem_range]
  unfold getO
  rw [List.getElem?_eq_getElem h2]
  rfl

theorem select_range (c : ColData) : c.select (List.range c.length) = c := by
  cases c <;> simp only [ColData.select, ColData.length] <;>
    rw [map_getO_range]

theorem selectRows_range_aux (t : Frame) (n : ℕ)
    (h : ∀ q ∈ t, q.2.length = n) :
    t.map (fun p => (p.1, p.2.select (List.range n))) = t := by
  have : ∀ p ∈ t, (fun p : String × ColData =>
      (p.1, p.2.select (List.range n))) p = id p := by
    intro p hp
    show (p.1, p.2.select (List.range n)) = p
    rw [← h p hp, select_range]
  rw [List.map_congr_left this, List.map_id]

theorem dedupPrimary_id (f : Frame) (hwf : wellFormed f)
    (hnd : ∀ i < nRows f, ∀ j < nRows f, i ≠ j → rowAt f i ≠ rowAt f j) :
    dedupPrimary f = f := by
  unfold dedupPrimary keepFirstIdx
  have hfil : (List.range (nRows f)).filter
      (fun i => !((List.range i).any (fun j => decide (rowAt f j = rowAt f i))))
      = List.range (nRows f) := by
    rw [List.filter_eq_self]
    intro i hi
    rw [Bool.not_eq_true']
    rw [List.any_eq_false]
    intro j hj hd
    have hji : rowAt f j = rowAt f i := of_decide_eq_true hd
    exact hnd j (lt_trans (List.mem_range.mp hj) (List.mem_range.mp hi))
      i (List.mem_range.mp hi) (Nat.ne_of_lt (List.mem_range.mp hj)) hji
  rw [hfil]
  unfold selectRows
  exact selectRows_range_aux f (nRows f) hwf

theorem clipCol_id (vs : List (Option ℚ))
    (h : stdPos vs = true → ∀ v ∈ presentVals vs, ∀ u,
      quantileQ (99 / 100) vs = some u → v ≤ u) :
    clipCol vs = vs := by
  unfold clipCol
  by_cases hs : stdPos vs
  · rw [if_pos hs]
    cases hq : quantileQ (99 / 100) vs with
    | none => rfl
    | some u =>
      have : ∀ v ∈ vs, (Option.map (fun x => min x u)) v = id v := by
        intro v hv
        cases v with
        | none => rfl
        | some a =>
          have ha : a ∈ presentVals vs := by
            unfold presentVals
            exact List.mem_filterMap.mpr ⟨some a, hv, rfl⟩
          have := h hs a ha u hq
          show some (min a u) = some a
          rw [min_eq_left this]
      show vs.map (Option.map (fun v => min v u)) = vs
      rw [List.map_congr_left this, List.map_id]
  · rw [if_neg hs]

theorem clipStep_id (f : Frame)
    (hclip : ∀ p ∈ f, ∀ vs, p.2 = ColData.num vs → stdPos vs = true →
      ∀ v ∈ presentVals vs, ∀ u, quantileQ (99 / 100) vs = some u → v ≤ u) :
    clipStep f = f := by
  unfold clipStep
  have : ∀ p ∈ f, (fun p : String × ColData => match p.2 with
      | ColData.num vs => (p.1, ColData.num (clipCol vs))
      | _ => p) p = id p := by
    intro p hp
    obtain ⟨nm, c⟩ := p
    cases c with
    | num vs =>
      show ((nm, ColData.num (clipCol vs)) : String × ColData)
        = id (nm, ColData.num vs)
      rw [clipCol_id vs (hclip (nm, ColData.num vs) hp vs rfl)]
      rfl
    | str vs => rfl
    | date vs => rfl
  rw [List.map_congr_left this, List.map_id]

/-- C3 amended: `clean_primary` is not idempotent in general (see the
counterexample: the 99th-percentile clip can lower already-clipped values
again).  A second application does change nothing — removes no duplicates,
imputes no values, alters no cell — precisely on tables where the extra
behaviours cannot fire: no special derived-feature column names, no two
equal rows in the cleaned output, and in every numeric cleaned column with
positive sample std the 99th percentile is at least the maximum (the clip is
a no-op the second time). -/
theorem c3_idempotent_conditional (x : Frame)
    (hwf : wellFormed x)
    (hns : NoSpecial x)
    (hnd : ∀ i < nRows (clean_nhamcs_data x), ∀ j < nRows (clean_nhamcs_data x),
      i ≠ j → rowAt (clean_nhamcs_data x) i ≠ rowAt (clean_nhamcs_data x) j)
    (hclip : ∀ p ∈ clean_nhamcs_data x, ∀ vs, p.2 = ColData.num vs →
      stdPos vs = true → ∀ v ∈ presentVals vs, ∀ u,
      quantileQ (99 / 100) vs = some u → v ≤ u) :
    clean_nhamcs_data (clean_nhamcs_data x) = clean_nhamcs_data x := by
  have hred := clean_reduced x hns
  have hwf1 : wellFormed (imputeStep x) := wf_imputeStep x hwf
  have hwf2 : wellFormed (dedupPrimary (imputeStep x)) :=
    wellFormed_selectRows _ _
  have hwfy : wellFormed (clean_nhamcs_data x) := by
    rw [hred]
    exact wf_clipStep _ hwf2
  have hnsy : NoSpecial (clean_nhamcs_data x) := by
    rw [hred]
    refine noSpecial_transfer x _ ?_ hns
    intro p hp
    obtain ⟨q, hq, he⟩ := mem_fst_clipStep _ p hp
    obtain ⟨r, hr, he2⟩ := mem_fst_selectRows _ _ q hq
    obtain ⟨t2, ht2, he3⟩ := mem_fst_imputeStep _ r hr
    exact ⟨t2, ht2, by rw [he, he2, he3]⟩
  have hinvy : ImpInv (clean_nhamcs_data x) := by
    rw [hred]
    refine impInv_clipStep _ ?_
    refine impInv_selectRows _ _ hwf1 ?_ (impInv_imputeStep x)
    intro i hi
    exact List.mem_range.mp (List.mem_filter.mp hi).1
  rw [clean_reduced _ hnsy, imputeStep_id _ hinvy,
    dedupPrimary_id _ hwfy hnd]
  exact clipStep_id _ hclip

/-- Witness for C3 (amended): on a constant-column table, deduplication
leaves a single row, the std is no longer positive, and a second cleaning
changes nothing. -/
theorem c3_idempotent_conditional_witness :
    clean_nhamcs_data (clean_nhamcs_data [("X", ColData.num [some 5, some 5])])
      = clean_nhamcs_data [("X", ColData.num [some 5, some 5])] :=
  c3_idempotent_conditional [("X", ColData.num [some 5, some 5])]
    (by decide) (by decide) (by decide)
    (by
      intro p hp vs hvs hsp
      rw [show clean_nhamcs_data [("X", ColData.num [some 5, some 5])]
          = [("X", ColData.num [some 5])] from by decide] at hp
      rw [List.mem_singleton] at hp
      rw [hp] at hvs
      have h2 : ColData.num [some 5] = ColData.num vs := hvs
      rw [ColData.num.injEq] at h2
      rw [← h2] at hsp
      exact absurd hsp (by decide))

/-! ### Merging (DataCleaner.merge_datasets, cleaning.py 161-245, and
DataMerger.merge_all_sources, data_merger.py 18-42)

A per-day aggregate is a list of sorted distinct group keys plus one value
per key per aggregate column; a pandas left merge against the aggregate's
(unique-keyed) index attaches, for each primary row, the matching aggregate
row's values, or missing values when no key matches. -/

/-- Is the cell at a row present? (`count` aggregation counts these). -/
def cellSome (c : ColData) (i : ℕ) : Bool :=
  match c with
  | .num vs => (getO vs i).isSome
  | .str vs => (getO vs i).isSome
  | .date vs => (getO vs i).isSome

/-- `agg('count')` over a group: non-missing cells. -/
def countIdx (c : ColData) (idxs : List ℕ) : ℕ :=
  (idxs.filter (fun i => cellSome c i)).length

/-- `agg('sum')` over a group (skipna, `min_count=0`: an all-missing group
sums to 0). -/
def sumIdx (sv : List (Option ℚ)) (idxs : List ℕ) : ℚ :=
  (idxs.filterMap (getO sv)).sum

/-- `', '.join` over a group's strings (a missing value in the group raises
`TypeError` in Python; modelled as a missing result, unexercised by the
theorems, whose hypotheses keep these columns missing-free). -/
def joinIdx (sv : List (Option String)) (idxs : List ℕ) : Option String :=
  if (idxs.map (getO sv)).all Option.isSome
  then some (String.intercalate ", " (idxs.filterMap (getO sv)))
  else none

/-- `Series.shift(k)` over a raw value list (the lag columns the cdc
aggregate carries). -/
def shiftL (k : ℕ) (vs : List (Option α)) : List (Option α) :=
  (List.range vs.length).map (fun i => if i < k then none else getO vs (i - k))

/-- Witness for C10: the theorem applied at a concrete one-column frame. -/
theorem c10_clip_scope_witness :
    getCol (clean_nhamcs_data [("X", ColData.num [some 1, some 2])]) "X"
      = some (ColData.num (clipCol [some 1, some 2])) :=
  ((c10_clip_scope [("X", ColData.num [some 1, some 2])]).2.1 "X"
    [some 1, some 2] (by decide)).1

/-! ### Row-count and key-column invariants of the merges -/

end HRO
